import Mathlib

/-!
Verification development for the GitApplier VS Code extension core
(src/extension.js): the clipboard script extractor, the heredoc diff-block
extractor, the unified-diff parser and the blind, index-based patch applier.

The JavaScript source is shallowly embedded here.  Raw text is modelled as
a list of characters (a JS string); a file's content is modelled as its
list of lines, exactly the value of content.split of a newline that the
source computes before patching and rejoins afterwards (lines produced by
that split never contain a newline character, so the list-of-lines view is
a faithful representation of the file content).  The specific regular
expressions of the source are embedded as deterministic scanners that
implement the exact ECMAScript matching semantics of those patterns
(leftmost match, greedy and lazy repetition as analysed per pattern, the
dollar anchor matching only at the very end of the input when the m flag
is absent).
-/

/-- Character lists, the model of JS strings. -/
abbrev Chars := List Char

/-- The JS whitespace class for the regexes and String.prototype.trim of the
source, restricted to the ASCII whitespace characters that can actually
occur in the inputs treated here (space, tab, newline, carriage return,
vertical tab, form feed). -/
def isWs (c : Char) : Bool :=
  c = ' ' || c = '\t' || c = '\n' || c = '\r' || c = Char.ofNat 11 || c = Char.ofNat 12

/-- Embedding of the JS call rawText.replace of the CRLF pattern by a bare
newline with the g flag: a single left-to-right pass replacing each
non-overlapping occurrence of CR LF by LF. -/
def normChars : Chars → Chars
  | [] => []
  | [c] => [c]
  | c1 :: c2 :: rest =>
    if c1 = '\r' ∧ c2 = '\n' then '\n' :: normChars rest
    else c1 :: normChars (c2 :: rest)

/-- Right trim part of JS String.prototype.trim. -/
def trimRight (cs : Chars) : Chars :=
  (cs.reverse.dropWhile isWs).reverse

/-- Embedding of JS String.prototype.trim: drop whitespace from both ends. -/
def jsTrim (cs : Chars) : Chars :=
  (trimRight cs).dropWhile isWs

/-- One parsed hunk record, exactly the object literal built by
parseDiffToFileHunks in the source (startOld, countOld, startNew, countNew,
newLines). -/
structure Hunk where
  startOld : Nat
  countOld : Nat
  startNew : Nat
  countNew : Nat
  newLines : List String
deriving DecidableEq, Repr

/-- Embedding of JS Array.prototype.splice as used on fileLines: per the
ECMAScript specification the start index and deletion count are clamped to
the array bounds, the clamped range is removed and the items are inserted
in its place. -/
def jsSplice (arr : List String) (start delCount : Nat) (items : List String) :
    List String :=
  arr.take (min start arr.length) ++ items ++
    arr.drop (min start arr.length + min delCount (arr.length - min start arr.length))

/-- Embedding of the defensive padding loop of applyHunksToFileAbs: while
the line array is shorter than the removal start, push an empty line. -/
def padWhile (lines : List String) (n : Nat) : List String :=
  if lines.length < n then padWhile (lines ++ [""]) n else lines
termination_by n - lines.length
decreasing_by simp_all; omega

/-- One iteration of the per-hunk loop of applyHunksToFileAbs for an
existing file: compute the removal start (startOld - 1 floored at zero,
which over Nat is plain truncated subtraction), pad, then splice out
countOld lines and splice in the replacement lines. -/
def applyOneHunk (lines : List String) (h : Hunk) : List String :=
  let removeStart := max (h.startOld - 1) 0
  jsSplice (padWhile lines removeStart) removeStart h.countOld h.newLines

/-- Embedding of the sort in applyHunksToFileAbs for existing files: the
spread copy of the hunks array sorted by the comparator returning
b.startOld - a.startOld.  ECMAScript sort is stable, so a stable merge
sort with the corresponding boolean order is the faithful model. -/
def sortHunksDesc (hs : List Hunk) : List Hunk :=
  hs.mergeSort (fun a b => Nat.ble b.startOld a.startOld)

/-- Embedding of the sort in the missing-file branch of
applyHunksToFileAbs: the spread copy sorted ascending by startNew. -/
def sortHunksAscNew (hs : List Hunk) : List Hunk :=
  hs.mergeSort (fun a b => Nat.ble a.startNew b.startNew)

/-- Missing-file branch of applyHunksToFileAbs: concatenate the newLines of
all hunks in ascending startNew order. -/
def synthesizeNewFile (hs : List Hunk) : List String :=
  ((sortHunksAscNew hs).map Hunk.newLines).flatten

/-- Existing-file branch of applyHunksToFileAbs: fold the per-hunk splice
over the hunks sorted descending by startOld. -/
def applyHunksExisting (fileLines : List String) (hunks : List Hunk) :
    List String :=
  (sortHunksDesc hunks).foldl applyOneHunk fileLines

/-- Embedding of applyHunksToFileAbs.  The file system is abstracted to the
optional current content of the target file (none when readFileSync
throws, i.e. the file does not exist); the function returns the line list
that is joined with newlines and written back. -/
def applyHunksToFileAbs (existing : Option (List String)) (hunks : List Hunk) :
    List String :=
  match existing with
  | none => synthesizeNewFile hunks
  | some fileLines => applyHunksExisting fileLines hunks

/-! ### The unified-diff parser (parseDiffToFileHunks) -/

/-- The two-character at-sign token of the hunk header pattern. -/
def atat : Chars := ['@', '@']

/-- The section lookahead token of the hunk body pattern. -/
def dgTok : Chars := "diff --git".toList

/-- The separator of the section split: newline followed by the
diff-dash-dash-git marker and a space. -/
def sepDG : Chars := '\n' :: "diff --git ".toList

/-- Embedding of parseInt with radix 10 on a matched digit group: the usual
decimal left fold.  The digit groups matched by the source are short, so
the double-precision range of JS numbers is never exceeded. -/
def parseNat (ds : Chars) : Nat :=
  ds.foldl (fun a c => a * 10 + (c.toNat - 48)) 0

/-- Greedy match of one digit group: a maximal nonempty run of decimal
digits (in the hunk header pattern every digit group is followed by a
non-digit, so greedy matching is exact). -/
def parseDigits (s : Chars) : Option (Nat × Chars) :=
  if (s.takeWhile Char.isDigit).isEmpty then none
  else some (parseNat (s.takeWhile Char.isDigit), s.drop (s.takeWhile Char.isDigit).length)

/-- Match a literal token at the current position. -/
def dropPref (pat s : Chars) : Option Chars :=
  if pat.isPrefixOf s then some (s.drop pat.length) else none

/-- Match one-or-more whitespace (greedy; in the header pattern the run is
always followed by a non-whitespace character, so greedy matching is
exact). -/
def wsPlus (s : Chars) : Option Chars :=
  match s with
  | c :: rest => if isWs c then some (rest.dropWhile isWs) else none
  | [] => none

/-- Match the optional comma-count group of a hunk header.  When a comma is
present it must be followed by digits: otherwise the optional group is
skipped and the mandatory following whitespace fails on the comma, so the
whole header match fails, which this embedding reports as none. -/
def optComma (s : Chars) : Option (Option Nat × Chars) :=
  match s with
  | ',' :: rest => (parseDigits rest).map (fun p => (some p.1, p.2))
  | _ => some (none, s)

/-- The lookahead that delimits a hunk body: a newline followed by a new
hunk header, a new file section, or the very end of the input (the
dollar anchor without the m flag). -/
def isTerm : Chars → Bool
  | '\n' :: r => atat.isPrefixOf r || dgTok.isPrefixOf r || r.isEmpty
  | _ => false

/-- Lazy match of the hunk body: the shortest prefix whose remainder
satisfies the lookahead; none when no remainder does (in that case the
whole hunk match fails and the hunk is not emitted). -/
def findBody (s : Chars) : Option (Chars × Chars) :=
  if isTerm s then some ([], s)
  else
    match s with
    | [] => none
    | c :: rest => (findBody rest).map (fun p => (c :: p.1, p.2))

/-- The literal no-newline marker tested by the body loop. -/
def noNlMarker : Chars := "\\ No newline at end of file".toList

/-- Embedding of String.prototype.split with a single-character
separator. -/
def splitOnChar (sep : Char) : Chars → List Chars
  | [] => [[]]
  | c :: rest =>
    if c = sep then [] :: splitOnChar sep rest
    else
      match splitOnChar sep rest with
      | s :: ss => (c :: s) :: ss
      | [] => [[c]]

/-- Embedding of the replace of one leading newline applied to a hunk
body. -/
def stripLeadNl (body : Chars) : Chars :=
  match body with
  | '\n' :: r => r
  | _ => body

/-- One iteration of the body loop of parseDiffToFileHunks: skip blank
lines, keep context and added lines with the prefix stripped, drop removed
lines and no-newline markers, keep any other line verbatim. -/
def bodyStep (acc : List String) (rawLine : Chars) : List String :=
  match rawLine with
  | [] => acc
  | c :: restL =>
    if c = ' ' then acc ++ [restL.asString]
    else if c = '+' then acc ++ [restL.asString]
    else if c = '-' then acc
    else if noNlMarker.isPrefixOf (c :: restL) then acc
    else acc ++ [(c :: restL).asString]

/-- The body loop of parseDiffToFileHunks over all body lines. -/
def processBodyLines (bodyLines : List Chars) : List String :=
  bodyLines.foldl bodyStep []

/-- Full body handling: strip one leading newline, split on newlines,
process each line. -/
def bodyToNewLines (body : Chars) : List String :=
  processBodyLines (splitOnChar '\n' (stripLeadNl body))

/-- Match the whole hunk pattern at the current position: the at-at token,
optional whitespace, the old start and optional old count, whitespace, the
new start and optional new count, whitespace, the closing at-at token, and
the lazy body up to the lookahead.  Returns the hunk record and the
remaining input at the lookahead position. -/
def matchHunkAt (s : Chars) : Option (Hunk × Chars) := do
  let s1 ← dropPref atat s
  let s2 := s1.dropWhile isWs
  let s3 ← dropPref ['-'] s2
  let (a, s4) ← parseDigits s3
  let (b, s5) ← optComma s4
  let s6 ← wsPlus s5
  let s7 ← dropPref ['+'] s6
  let (c, s8) ← parseDigits s7
  let (d, s9) ← optComma s8
  let s10 ← wsPlus s9
  let s11 ← dropPref atat s10
  let (body, rest) ← findBody s11
  some (⟨a, b.getD 1, c, d.getD 1, bodyToNewLines body⟩, rest)

theorem dropPref_length {p s t : Chars} (h : dropPref p s = some t) :
    t.length ≤ s.length := by
  unfold dropPref at h
  split at h
  · cases h; simp
  · cases h

theorem dropWhile_length (p : Char → Bool) (l : Chars) :
    (l.dropWhile p).length ≤ l.length := by
  induction l with
  | nil => simp
  | cons c rest ih =>
    by_cases hc : p c
    · simp [List.dropWhile, hc]; omega
    · simp [List.dropWhile, hc]

theorem parseDigits_length {s : Chars} {q : Nat × Chars}
    (h : parseDigits s = some q) : q.2.length ≤ s.length := by
  unfold parseDigits at h
  split at h
  · cases h
  · cases h; simp

theorem optComma_length {s : Chars} {q : Option Nat × Chars}
    (h : optComma s = some q) : q.2.length ≤ s.length := by
  unfold optComma at h
  split at h
  · rename_i rest
    rcases Option.map_eq_some'.mp h with ⟨p, hp, he⟩
    have := parseDigits_length hp
    subst he
    simp at this ⊢
    omega
  · cases h; simp

theorem wsPlus_length {s t : Chars} (h : wsPlus s = some t) :
    t.length < s.length := by
  cases s with
  | nil => simp [wsPlus] at h
  | cons c rest =>
    simp only [wsPlus] at h
    split at h
    · cases h
      have := dropWhile_length isWs rest
      simp
      omega
    · cases h

theorem findBody_length : ∀ {s : Chars} {q : Chars × Chars},
    findBody s = some q → q.2.length ≤ s.length := by
  intro s
  induction s with
  | nil =>
    intro q h
    rw [findBody] at h
    simp [isTerm] at h
  | cons c rest ih =>
    intro q h
    rw [findBody] at h
    split at h
    · cases h; simp
    · rcases Option.map_eq_some'.mp h with ⟨p, hp, he⟩
      have := ih hp
      subst he
      simp at this ⊢
      omega

theorem matchHunkAt_length {s : Chars} {h : Hunk} {rest : Chars}
    (hm : matchHunkAt s = some (h, rest)) : rest.length < s.length := by
  unfold matchHunkAt at hm
  simp only [Option.bind_eq_bind, Option.bind_eq_some] at hm
  rcases hm with ⟨s1, h1, hm⟩
  rcases hm with ⟨s3, h3, hm⟩
  rcases hm with ⟨p4, h4, hm⟩
  rcases hm with ⟨p5, h5, hm⟩
  rcases hm with ⟨s6, h6, hm⟩
  rcases hm with ⟨s7, h7, hm⟩
  rcases hm with ⟨p8, h8, hm⟩
  rcases hm with ⟨p9, h9, hm⟩
  rcases hm with ⟨s10, h10, hm⟩
  rcases hm with ⟨s11, h11, hm⟩
  rcases hm with ⟨p12, h12, hm⟩
  obtain ⟨body, rest'⟩ := p12
  cases hm
  have l1 := dropPref_length h1
  have l2 := dropWhile_length isWs s1
  have l3 := dropPref_length h3
  have l4 := parseDigits_length h4
  have l5 := optComma_length h5
  have l6 := wsPlus_length h6
  have l7 := dropPref_length h7
  have l8 := parseDigits_length h8
  have l9 := optComma_length h9
  have l10 := wsPlus_length h10
  have l11 := dropPref_length h11
  have l12 := findBody_length h12
  have l12x : rest'.length ≤ s11.length := l12
  omega

/-- Embedding of the global exec loop of the hunk pattern: scan left to
right; at a match emit the hunk and resume at the lookahead position,
otherwise advance one character. -/
def scanHunks (s : Chars) : List Hunk :=
  match hm : matchHunkAt s with
  | some (h, rest) => h :: scanHunks rest
  | none =>
    match s with
    | [] => []
    | _ :: rest2 => scanHunks rest2
termination_by s.length
decreasing_by
  · exact matchHunkAt_length hm
  · simp

/-- Embedding of the section split of parseDiffToFileHunks: JS split on the
newline-diff-git pattern, leftmost non-overlapping occurrences, the
separator removed. -/
def splitSections (cs : Chars) : List Chars :=
  match cs with
  | [] => [[]]
  | c :: rest =>
    if sepDG.isPrefixOf (c :: rest) then
      [] :: splitSections ((c :: rest).drop sepDG.length)
    else
      match splitSections rest with
      | s :: ss => (c :: s) :: ss
      | [] => [[c]]
termination_by cs.length
decreasing_by
  · simp [sepDG]; omega
  · simp

/-- The literal token of the per-file header pattern up to the a-side
path. -/
def hdrTok : Chars := "diff --git a/".toList

/-- The literal separator between the a-side and b-side paths. -/
def sepB : Chars := " b/".toList

/-- The lazy b-side group attempted after a space-b-slash separator: a
nonempty run of non-newline characters that must be followed by a
newline (so the run must stop strictly before the end). -/
def tryBSide (after : Chars) : Option Chars :=
  if 1 ≤ (after.takeWhile (fun x => x ≠ '\n')).length ∧
      (after.takeWhile (fun x => x ≠ '\n')).length < after.length then
    some (after.takeWhile (fun x => x ≠ '\n'))
  else none

/-- Lazy scan for the b-side path of a file header: the lazy a-side group
grows one non-newline character at a time; at each position the space-b-
slash separator is tried, followed by the b-side group. -/
def scanAB : Chars → Option Chars
  | [] => none
  | c :: rest =>
    if sepB.isPrefixOf (c :: rest) then
      match tryBSide ((c :: rest).drop 3) with
      | some g2 => some g2
      | none => if c = '\n' then none else scanAB rest
    else if c = '\n' then none else scanAB rest

/-- Embedding of the per-file header match: anchored at the section start,
leading whitespace allowed, then the diff-git token, a lazy nonempty
a-side group of non-newline characters, the b-side separator and a lazy
nonempty b-side group running to the end of the header line.  Returns the
trimmed b-side path. -/
def matchFileHeader (cs : Chars) : Option String :=
  if hdrTok.isPrefixOf (cs.dropWhile isWs) then
    match (cs.dropWhile isWs).drop hdrTok.length with
    | [] => none
    | c :: rest =>
      if c = '\n' then none
      else (scanAB rest).map (fun g2 => (jsTrim g2).asString)
  else none

/-- The prepended token restored to every non-first section after the
split. -/
def dgPre : Chars := "diff --git ".toList

/-- Accumulate the hunks parsed from one section under the b-side path:
the source creates the entry on first sight of the path (preserving
insertion order of the object keys) and then pushes every hunk of the
section. -/
def addHunks (acc : List (String × List Hunk)) (bPath : String)
    (hs : List Hunk) : List (String × List Hunk) :=
  if acc.any (fun e => e.1 = bPath) then
    acc.map (fun e => if e.1 = bPath then (e.1, e.2 ++ hs) else e)
  else acc ++ [(bPath, hs)]

/-- Processing of one split section: skip whitespace-only pieces, restore
the split separator text on non-first pieces, match the file header (a
section without one is skipped) and scan the whole section for hunks. -/
def stepSection (pre : Chars) (acc : List (String × List Hunk))
    (sec : Chars) : List (String × List Hunk) :=
  if (jsTrim sec).isEmpty then acc
  else
    match matchFileHeader (pre ++ sec) with
    | none => acc
    | some bPath => addHunks acc bPath (scanHunks (pre ++ sec))

/-- Embedding of parseDiffToFileHunks: split the diff text into per-file
sections, process each, and return the path-to-hunks mapping as an
association list in object-key insertion order. -/
def parseDiffToFileHunks (diffText : String) : List (String × List Hunk) :=
  match splitSections diffText.toList with
  | [] => []
  | s0 :: rest => rest.foldl (stepSection dgPre) (stepSection [] [] s0)

/-! ### The script extractor (extractScriptFromClipboard) -/

/-- The three-backtick fence token. -/
def fenceTok : Chars := "```".toList

/-- Embedding of the replace removing an opening fence: the fence token,
the rest of its line,and one following newline when present; applied only
when the text starts with the fence token (mirroring the anchored
pattern). -/
def stripOpenFence (cs : Chars) : Chars :=
  if fenceTok.isPrefixOf cs then
    stripLeadNl ((cs.drop 3).dropWhile (fun x => x ≠ '\n'))
  else cs

/-- Embedding of the replace removing a closing fence: the end-anchored
fence pattern can only match the last three characters, removed when the
text ends with the fence token. -/
def stripCloseFence (cs : Chars) : Chars :=
  if fenceTok.isSuffixOf cs then cs.take (cs.length - 3) else cs

/-- The literal tokens of the patch-invocation search pattern. -/
def gitTok : Chars := "git".toList

/-- The apply token of the patch-invocation search pattern. -/
def applyTok : Chars := "apply".toList

/-- The open-parenthesis-cd token of the subshell alternative. -/
def cdTok : Chars := "(cd".toList

/-- Match the git token, one-or-more whitespace (which may span line
breaks), then the apply token, at the current position. -/
def gitWsApply (t : Chars) : Bool :=
  gitTok.isPrefixOf t &&
    (match t.drop 3 with
     | c :: r => isWs c && applyTok.isPrefixOf (r.dropWhile isWs)
     | [] => false)

/-- Scan the remainder of the current line (characters before the next
newline) for a git-whitespace-apply occurrence. -/
def hasGitApplyInLine : Chars → Bool
  | [] => false
  | c :: rest =>
    if c = '\n' then false
    else gitWsApply (c :: rest) || hasGitApplyInLine rest

/-- The subshell alternative of the search pattern at the current
position: the open-parenthesis-cd token with a git-apply invocation later
on the same line. -/
def alt1At (s : Chars) : Bool :=
  cdTok.isPrefixOf s && hasGitApplyInLine (s.drop 3)

/-- The line-anchored alternative at the current position: optional
whitespace (possibly spanning lines), then git-whitespace-apply. -/
def alt2At (s : Chars) : Bool :=
  gitWsApply (s.dropWhile isWs)

/-- The leftmost-match scan of the invocation search pattern: at each
position try the subshell alternative, and — when the position starts a
line — the anchored alternative; both alternatives capture the whole
suffix of the text (their trailing wildcard runs to the end of input). -/
def gitApplySearchGo (atLineStart : Bool) : Chars → Option Chars
  | [] => none
  | c :: rest =>
    if alt1At (c :: rest) || (atLineStart && alt2At (c :: rest)) then
      some (c :: rest)
    else gitApplySearchGo (c = '\n') rest

/-- The invocation search over the whole text (position zero starts a
line). -/
def gitApplySearch (s : Chars) : Option Chars :=
  gitApplySearchGo true s

/-- The normalized, trimmed and (when fenced) defenced text computed by
extractScriptFromClipboard before the invocation search. -/
def defencedText (rawText : String) : Chars :=
  if fenceTok.isPrefixOf (jsTrim (normChars rawText.toList)) then
    jsTrim (stripCloseFence (stripOpenFence (jsTrim (normChars rawText.toList))))
  else jsTrim (normChars rawText.toList)

/-- Embedding of extractScriptFromClipboard: empty input is returned as
is; otherwise the text is normalized, trimmed and defenced, and the
invocation search result (trimmed) replaces the text when it matches. -/
def extractScriptFromClipboard (rawText : String) : String :=
  if rawText = "" then ""
  else
    match gitApplySearch (defencedText rawText) with
    | some m => (jsTrim m).asString
    | none => (defencedText rawText).asString

/-! ### The diff block extractor and the forced overwrite -/

/-- The double-angle heredoc opener token. -/
def ltlt : Chars := "<<".toList

/-- The heredoc terminator word. -/
def eofTok : Chars := "EOF".toList

/-- The newline-terminator token that ends a heredoc capture. -/
def nlEof : Chars := '\n' :: "EOF".toList

/-- Optional single quote or double quote followed by the terminator word
(when a quote is present the word must follow it: backtracking to the
unquoted branch cannot succeed because the word cannot start with a
quote). -/
def dropQuoteEof (s : Chars) : Option Chars :=
  match s with
  | c :: rest =>
    if c = '\'' ∨ c = '"' then
      if eofTok.isPrefixOf rest then some (rest.drop 3) else none
    else if eofTok.isPrefixOf (c :: rest) then some ((c :: rest).drop 3)
    else none
  | [] => none

/-- The second optional quote of the heredoc opener pattern. -/
def dropOptQuote2 (s : Chars) : Chars :=
  match s with
  | c :: rest => if c = '\'' ∨ c = '"' then rest else s
  | [] => s

/-- Greedy whitespace followed by a newline: consumes up to and including
the last newline of the maximal whitespace run, failing when that run
contains no newline. -/
def wsStarNl (s : Chars) : Option Chars :=
  match ((s.takeWhile isWs).reverse.findIdx? (fun x => x = '\n')) with
  | some j => some (s.drop ((s.takeWhile isWs).length - j))
  | none => none

/-- Leftmost occurrence of a token: the text before it and the text after
it. -/
def findSub (pat : Chars) : Chars → Option (Chars × Chars)
  | [] => if pat.isPrefixOf ([] : Chars) then some ([], []) else none
  | c :: rest =>
    if pat.isPrefixOf (c :: rest) then some ([], (c :: rest).drop pat.length)
    else (findSub pat rest).map (fun p => (c :: p.1, p.2))

/-- Match the whole heredoc pattern at the current position: the opener
token, the optionally quoted terminator word, whitespace through a
newline, then a lazy body up to the first newline-terminator token.
Returns the captured body and the remaining input after the match. -/
def matchHeredocAt (s : Chars) : Option (Chars × Chars) := do
  let s1 ← dropPref ltlt s
  let s2 ← dropQuoteEof s1
  let s4 ← wsStarNl (dropOptQuote2 s2)
  let (body, rest) ← findSub nlEof s4
  some (body, rest)

theorem dropQuoteEof_length {s t : Chars} (h : dropQuoteEof s = some t) :
    t.length ≤ s.length := by
  cases s with
  | nil => simp [dropQuoteEof] at h
  | cons c rest =>
    simp only [dropQuoteEof] at h
    split at h
    · split at h
      · cases h; simp; omega
      · cases h
    · split at h
      · cases h; simp; omega
      · cases h

theorem dropOptQuote2_length (s : Chars) :
    (dropOptQuote2 s).length ≤ s.length := by
  cases s with
  | nil => simp [dropOptQuote2]
  | cons c rest =>
    simp only [dropOptQuote2]
    split <;> simp

theorem findIdxq_bounds {α : Type} (p : α → Bool) :
    ∀ (l : List α) (i j : Nat),
      List.findIdx? p l i = some j → i ≤ j ∧ j < i + l.length := by
  intro l
  induction l with
  | nil => intro i j h; simp [List.findIdx?] at h
  | cons a rest ih =>
    intro i j h
    rw [List.findIdx?_cons] at h
    split at h
    · cases h
      simp only [List.length_cons]
      omega
    · have := ih (i + 1) j h
      simp only [List.length_cons]
      omega

theorem wsStarNl_length {s t : Chars} (h : wsStarNl s = some t) :
    t.length < s.length := by
  unfold wsStarNl at h
  split at h
  · rename_i j hj
    cases h
    have hb := findIdxq_bounds (fun x => decide (x = '\n')) (s.takeWhile isWs).reverse 0 j hj
    have hw : (s.takeWhile isWs).length ≤ s.length := by
      have := List.takeWhile_append_dropWhile isWs s
      calc (s.takeWhile isWs).length
          ≤ (s.takeWhile isWs).length + (s.dropWhile isWs).length := by omega
        _ = s.length := by
            rw [← List.length_append, this]
    simp only [List.length_reverse] at hb
    simp only [List.length_drop]
    omega
  · cases h

theorem findSub_length {pat : Chars} : ∀ {s : Chars} {q : Chars × Chars},
    findSub pat s = some q → q.2.length ≤ s.length := by
  intro s
  induction s with
  | nil =>
    intro q h
    simp only [findSub] at h
    split at h
    · cases h; simp
    · cases h
  | cons c rest ih =>
    intro q h
    simp only [findSub] at h
    split at h
    · cases h; simp
    · rcases Option.map_eq_some'.mp h with ⟨p, hp, he⟩
      have := ih hp
      subst he
      simp at this ⊢
      omega

theorem matchHeredocAt_length {s : Chars} {body rest : Chars}
    (hm : matchHeredocAt s = some (body, rest)) : rest.length < s.length := by
  unfold matchHeredocAt at hm
  simp only [Option.bind_eq_bind, Option.bind_eq_some] at hm
  rcases hm with ⟨s1, h1, hm⟩
  rcases hm with ⟨s2, h2, hm⟩
  rcases hm with ⟨s4, h4, hm⟩
  rcases hm with ⟨p, hp, hm⟩
  obtain ⟨b', r'⟩ := p
  cases hm
  have l1 := dropPref_length h1
  have l2 := dropQuoteEof_length h2
  have l3 := dropOptQuote2_length s2
  have l4 := wsStarNl_length h4
  have l5 := findSub_length hp
  have l5x : r'.length ≤ s4.length := l5
  omega

/-- Embedding of the global exec loop of the heredoc pattern: collect
every captured body left to right. -/
def scanHeredocs (s : Chars) : List Chars :=
  match hm : matchHeredocAt s with
  | some (body, rest) => body :: scanHeredocs rest
  | none =>
    match s with
    | [] => []
    | _ :: rest2 => scanHeredocs rest2
termination_by s.length
decreasing_by
  · exact matchHeredocAt_length hm
  · simp

/-- Embedding of extractDiffBlocksFromScript: every heredoc body is one
block; when there is none and the script mentions the diff-git token, the
whole script is the single block. -/
def extractDiffBlocksFromScript (scriptText : String) : List Chars :=
  let blocks := scanHeredocs scriptText.toList
  if blocks.isEmpty then
    if (findSub dgTok scriptText.toList).isSome then [scriptText.toList] else []
  else blocks

/-- The leading b-slash or a-slash strip applied to a parsed path before
joining it to the working directory (both anchored replaces run in
sequence). -/
def stripBslash (q : Chars) : Chars :=
  if ("b/".toList).isPrefixOf q then q.drop 2 else q

/-- Strip one leading a-slash. -/
def stripAslash (q : Chars) : Chars :=
  if ("a/".toList).isPrefixOf q then q.drop 2 else q

/-- The sequential application of both strips to a parsed path. -/
def stripBA (p : String) : String :=
  (stripAslash (stripBslash p.toList)).asString

/-- Model of Node path.join on POSIX segment lists with an absolute
working directory: empty and dot segments vanish, a dot-dot segment pops
the last segment (at the root it is dropped), anything else is
appended. -/
def pathJoinSegs (cwd : List String) (rel : String) : List String :=
  ((splitOnChar '/' rel.toList).map List.asString).foldl
    (fun acc seg =>
      if seg = "" ∨ seg = "." then acc
      else if seg = ".." then acc.dropLast
      else acc ++ [seg])
    cwd

deriving instance DecidableEq for Except

/-- Embedding of forceOverwriteFromScript.  Disk writes are abstracted to
the returned write plan: the resolved target path (as segments under the
working directory) paired with the hunks applied to it.  The thrown
no-diff-blocks error is the error branch. -/
def forceOverwriteFromScript (cwd : List String) (clipScript : String) :
    Except String (List (List String × List Hunk)) :=
  if (extractDiffBlocksFromScript clipScript).isEmpty then
    Except.error ("No diff blocks found in clipboard script for force overwrite.")
  else
    Except.ok
      ((extractDiffBlocksFromScript clipScript).foldl
        (fun acc diffText =>
          acc ++ (parseDiffToFileHunks diffText.asString).map
            (fun e => (pathJoinSegs cwd (stripBA e.1), e.2)))
        [])

/-! ### Basic lemmas about the applier -/

theorem padWhile_eq_aux :
    ∀ (k : Nat) (l : List String) (n : Nat), n - l.length ≤ k →
      padWhile l n = l ++ List.replicate (n - l.length) "" := by
  intro k
  induction k with
  | zero =>
    intro l n hk
    rw [padWhile]
    split
    · rename_i hlt; omega
    · have h0 : n - l.length = 0 := by omega
      rw [h0]; simp
  | succ k ih =>
    intro l n hk
    rw [padWhile]
    split
    · rename_i hlt
      rw [ih (l ++ [""]) n (by simp; omega)]
      rw [List.append_assoc]
      congr 1
      simp only [List.length_append, List.length_cons, List.length_nil]
      have h1 : n - l.length = (n - (l.length + 1)) + 1 := by omega
      rw [h1, List.replicate_succ]
      rfl
    · rename_i hge
      have h0 : n - l.length = 0 := by omega
      rw [h0]; simp

theorem padWhile_eq (l : List String) (n : Nat) :
    padWhile l n = l ++ List.replicate (n - l.length) "" :=
  padWhile_eq_aux (n - l.length) l n le_rfl

theorem jsSplice_eq (arr : List String) (s d : Nat) (items : List String) :
    jsSplice arr s d items = arr.take s ++ items ++ arr.drop (s + d) := by
  unfold jsSplice
  by_cases hs : s ≤ arr.length
  · have h1 : min s arr.length = s := by omega
    rw [h1]
    by_cases hd : d ≤ arr.length - s
    · have h2 : min d (arr.length - s) = d := by omega
      rw [h2]
    · have h2 : min d (arr.length - s) = arr.length - s := by omega
      rw [h2]
      have h3 : s + (arr.length - s) = arr.length := by omega
      rw [h3, List.drop_length, List.drop_eq_nil_of_le (by omega)]
  · have h1 : min s arr.length = arr.length := by omega
    rw [h1]
    have h2 : min d (arr.length - arr.length) = 0 := by omega
    rw [h2]
    rw [List.take_of_length_le (by omega), List.take_of_length_le (by omega)]
    rw [Nat.add_zero, List.drop_length, List.drop_eq_nil_of_le (by omega)]

/-- The per-hunk removal-and-insertion step written exactly as the
specification describes it: removal start, padding with empty lines up to
that index, removing countOld lines there and inserting the replacement
lines. -/
def specRemoveInsert (lines : List String) (h : Hunk) : List String :=
  let start := max (h.startOld - 1) 0
  let padded := lines ++ List.replicate (start - lines.length) ""
  padded.take start ++ h.newLines ++ padded.drop (start + h.countOld)

theorem applyOneHunk_eq_spec (l : List String) (h : Hunk) :
    applyOneHunk l h = specRemoveInsert l h := by
  simp only [applyOneHunk, specRemoveInsert]
  rw [padWhile_eq, jsSplice_eq]

theorem sortHunksDesc_perm (hs : List Hunk) : (sortHunksDesc hs).Perm hs :=
  List.mergeSort_perm hs _

theorem sortHunksDesc_sorted (hs : List Hunk) :
    (sortHunksDesc hs).Pairwise (fun a b => b.startOld ≤ a.startOld) := by
  have := @List.sorted_mergeSort Hunk
    (fun a b : Hunk => Nat.ble b.startOld a.startOld)
    (fun a b c h₁ h₂ => by
      simp only [Nat.ble_eq] at h₁ h₂ ⊢
      omega)
    (fun a b => by
      rcases Nat.le_total b.startOld a.startOld with h | h
      · simp [Nat.ble_eq, h]
      · simp [Nat.ble_eq, h])
    hs
  refine this.imp ?_
  intro a b hab
  simpa [Nat.ble_eq] using hab

theorem sortHunksAscNew_perm (hs : List Hunk) : (sortHunksAscNew hs).Perm hs :=
  List.mergeSort_perm hs _

theorem sortHunksAscNew_sorted (hs : List Hunk) :
    (sortHunksAscNew hs).Pairwise (fun a b => a.startNew ≤ b.startNew) := by
  have := @List.sorted_mergeSort Hunk
    (fun a b : Hunk => Nat.ble a.startNew b.startNew)
    (fun a b c h₁ h₂ => by
      simp only [Nat.ble_eq] at h₁ h₂ ⊢
      omega)
    (fun a b => by
      rcases Nat.le_total a.startNew b.startNew with h | h
      · simp [Nat.ble_eq, h]
      · simp [Nat.ble_eq, h])
    hs
  refine this.imp ?_
  intro a b hab
  simpa [Nat.ble_eq] using hab

/-! ### A semantic characterization of unified diffs (for the round-trip
property) -/

/-- Validity of a hunk list as the parse of a unified diff generated from
an old file to a new file, checked from a current position in both files
(the number of lines already consumed).  For every hunk: its old-file
anchor is the zero-based index of the first consumed old line (startOld
minus one when the hunk consumes old lines, or startOld itself for a pure
insertion with countOld zero, which by the unified-diff convention is
placed after line startOld); the files agree on the gap before the
anchor; countOld old lines exist at the anchor; the replacement lines are
exactly the corresponding new-file segment of length countNew starting at
the new-file anchor; and the remainder of both files is described by the
remaining hunks.  An empty hunk list requires the remaining files to be
identical. -/
def checkDiffFrom : Nat → Nat → List String → List String → List Hunk → Bool
  | _, _, old, new, [] => old == new
  | oldPos, newPos, old, new, h :: rest =>
    let oldAnchor := if h.countOld == 0 then h.startOld else h.startOld - 1
    let newAnchor := if h.countNew == 0 then h.startNew else h.startNew - 1
    let g := oldAnchor - oldPos
    decide (oldPos ≤ oldAnchor) &&
    (newAnchor == newPos + g) &&
    (old.take g == new.take g) &&
    decide (g + h.countOld ≤ old.length) &&
    (h.countNew == h.newLines.length) &&
    (h.newLines == (new.drop g).take h.countNew) &&
    checkDiffFrom (oldAnchor + h.countOld) (newPos + g + h.countNew)
      (old.drop (g + h.countOld)) (new.drop (g + h.countNew)) rest

/-- A hunk list is the parse of a unified diff from old to new when the
check succeeds from the start of both files. -/
def isDiffOf (old new : List String) (hs : List Hunk) : Bool :=
  checkDiffFrom 0 0 old new hs

theorem listSplit3 {α : Type} (l : List α) (a b : Nat) :
    l = l.take a ++ ((l.drop a).take b ++ l.drop (a + b)) := by
  have h2 : (l.drop a).take b ++ l.drop (a + b) = l.drop a := by
    have h3 := List.take_append_drop b (l.drop a)
    rwa [List.drop_drop] at h3
  rw [h2]
  exact (List.take_append_drop a l).symm

theorem checkDiff_cons_decomp {oldPos newPos : Nat} {old new : List String}
    {h : Hunk} {rest : List Hunk}
    (hc : checkDiffFrom oldPos newPos old new (h :: rest) = true)
    (hcpos : 1 ≤ h.countOld) :
    oldPos ≤ h.startOld - 1 ∧
    old.take (h.startOld - 1 - oldPos) = new.take (h.startOld - 1 - oldPos) ∧
    (h.startOld - 1 - oldPos) + h.countOld ≤ old.length ∧
    h.newLines = (new.drop (h.startOld - 1 - oldPos)).take h.countNew ∧
    checkDiffFrom (h.startOld - 1 + h.countOld)
      (newPos + (h.startOld - 1 - oldPos) + h.countNew)
      (old.drop ((h.startOld - 1 - oldPos) + h.countOld))
      (new.drop ((h.startOld - 1 - oldPos) + h.countNew)) rest = true := by
  have hco : (h.countOld == 0) = false := by
    simp only [beq_eq_false_iff_ne, ne_eq]
    omega
  simp only [checkDiffFrom, hco, Bool.false_eq_true, if_false,
    Bool.and_eq_true, decide_eq_true_eq, beq_iff_eq] at hc
  obtain ⟨⟨⟨⟨⟨⟨h1, _h2⟩, h3⟩, h4⟩, _h5⟩, h6⟩, h7⟩ := hc
  exact ⟨h1, h3, h4, h6, h7⟩

theorem specRemoveInsert_formula (lines : List String) (h : Hunk) :
    specRemoveInsert lines h =
      (lines ++ List.replicate ((h.startOld - 1) - lines.length) "").take
          (h.startOld - 1) ++
        h.newLines ++
        (lines ++ List.replicate ((h.startOld - 1) - lines.length) "").drop
          ((h.startOld - 1) + h.countOld) := by
  simp only [specRemoveInsert, Nat.max_zero]

theorem take_drop_mid {α : Type} (p g m t : List α) (S C : Nat)
    (hS : S = p.length + g.length) (hC : C = m.length) :
    ((p ++ (g ++ m)) ++ t).take S = p ++ g ∧
    ((p ++ (g ++ m)) ++ t).drop (S + C) = t := by
  constructor
  · have hshape : (p ++ (g ++ m)) ++ t = (p ++ g) ++ (m ++ t) := by
      simp [List.append_assoc]
    rw [hshape]
    have h2 : S = (p ++ g).length := by simp [hS]
    rw [h2, List.take_left]
  · have hshape : (p ++ (g ++ m)) ++ t = ((p ++ g) ++ m) ++ t := by
      simp [List.append_assoc]
    rw [hshape]
    have h2 : S + C = ((p ++ g) ++ m).length := by simp [hS, hC]; omega
    rw [h2, List.drop_left]

theorem checkDiff_apply :
    ∀ (hs : List Hunk) (oldPos newPos : Nat) (old new pre : List String),
      checkDiffFrom oldPos newPos old new hs = true →
      (∀ h ∈ hs, 1 ≤ h.countOld) →
      pre.length = oldPos →
      hs.foldr (fun h acc => applyOneHunk acc h) (pre ++ old) = pre ++ new := by
  intro hs
  induction hs with
  | nil =>
    intro oldPos newPos old new pre hchk hpos hlen
    simp only [checkDiffFrom, beq_iff_eq] at hchk
    simp [hchk]
  | cons h rest ih =>
    intro oldPos newPos old new pre hchk hpos hlen
    have hcpos : 1 ≤ h.countOld := hpos h (List.mem_cons_self h rest)
    obtain ⟨h1, h3, h4, h6, h7⟩ := checkDiff_cons_decomp hchk hcpos
    have hglen : (old.take (h.startOld - 1 - oldPos)).length
        = h.startOld - 1 - oldPos := by
      rw [List.length_take]; omega
    have hmidlen : ((old.drop (h.startOld - 1 - oldPos)).take h.countOld).length
        = h.countOld := by
      rw [List.length_take, List.length_drop]; omega
    have hpre2len :
        (pre ++ (old.take (h.startOld - 1 - oldPos) ++
          (old.drop (h.startOld - 1 - oldPos)).take h.countOld)).length
        = h.startOld - 1 + h.countOld := by
      simp only [List.length_append, hglen, hmidlen]
      omega
    have hih := ih (h.startOld - 1 + h.countOld)
      (newPos + (h.startOld - 1 - oldPos) + h.countNew)
      (old.drop ((h.startOld - 1 - oldPos) + h.countOld))
      (new.drop ((h.startOld - 1 - oldPos) + h.countNew))
      (pre ++ (old.take (h.startOld - 1 - oldPos) ++
        (old.drop (h.startOld - 1 - oldPos)).take h.countOld))
      h7 (fun x hx => hpos x (List.mem_cons_of_mem h hx)) hpre2len
    rw [List.foldr_cons]
    have hpreold : pre ++ old =
        (pre ++ (old.take (h.startOld - 1 - oldPos) ++
          (old.drop (h.startOld - 1 - oldPos)).take h.countOld)) ++
          old.drop ((h.startOld - 1 - oldPos) + h.countOld) := by
      conv_lhs => rw [listSplit3 old (h.startOld - 1 - oldPos) h.countOld]
      simp [List.append_assoc]
    rw [hpreold, hih, applyOneHunk_eq_spec, specRemoveInsert_formula]
    have hLlen :
        ((pre ++ (old.take (h.startOld - 1 - oldPos) ++
          (old.drop (h.startOld - 1 - oldPos)).take h.countOld)) ++
          new.drop ((h.startOld - 1 - oldPos) + h.countNew)).length
        = h.startOld - 1 + h.countOld +
            (new.drop ((h.startOld - 1 - oldPos) + h.countNew)).length := by
      simp only [List.length_append, hglen, hmidlen]
      omega
    have h0 : (h.startOld - 1) -
        ((pre ++ (old.take (h.startOld - 1 - oldPos) ++
          (old.drop (h.startOld - 1 - oldPos)).take h.countOld)) ++
          new.drop ((h.startOld - 1 - oldPos) + h.countNew)).length = 0 := by
      rw [hLlen]; omega
    rw [h0, List.replicate_zero, List.append_nil]
    have htdm := take_drop_mid pre (old.take (h.startOld - 1 - oldPos))
      ((old.drop (h.startOld - 1 - oldPos)).take h.countOld)
      (new.drop ((h.startOld - 1 - oldPos) + h.countNew))
      (h.startOld - 1) h.countOld
      (by rw [hglen]; omega) hmidlen.symm
    rw [htdm.1, htdm.2]
    have hnew3 := listSplit3 new (h.startOld - 1 - oldPos) h.countNew
    rw [← h3, ← h6] at hnew3
    conv_rhs => rw [hnew3]
    simp [List.append_assoc]

theorem checkDiff_lb :
    ∀ (hs : List Hunk) (oldPos newPos : Nat) (old new : List String),
      1 ≤ oldPos →
      checkDiffFrom oldPos newPos old new hs = true →
      (∀ h ∈ hs, 1 ≤ h.countOld) →
      ∀ h' ∈ hs, oldPos < h'.startOld := by
  intro hs
  induction hs with
  | nil => intro oldPos newPos old new hop hchk hpos h' hm; cases hm
  | cons h rest ih =>
    intro oldPos newPos old new hop hchk hpos h' hm
    have hcpos : 1 ≤ h.countOld := hpos h (List.mem_cons_self h rest)
    obtain ⟨h1, _h3, _h4, _h6, h7⟩ := checkDiff_cons_decomp hchk hcpos
    rcases List.mem_cons.mp hm with he | hm'
    · subst he; omega
    · have hlt := ih (h.startOld - 1 + h.countOld)
        (newPos + (h.startOld - 1 - oldPos) + h.countNew)
        (old.drop ((h.startOld - 1 - oldPos) + h.countOld))
        (new.drop ((h.startOld - 1 - oldPos) + h.countNew))
        (by omega) h7 (fun x hx => hpos x (List.mem_cons_of_mem h hx)) h' hm'
      omega

theorem checkDiff_pairwise :
    ∀ (hs : List Hunk) (oldPos newPos : Nat) (old new : List String),
      checkDiffFrom oldPos newPos old new hs = true →
      (∀ h ∈ hs, 1 ≤ h.countOld) →
      hs.Pairwise (fun a b => a.startOld < b.startOld) := by
  intro hs
  induction hs with
  | nil => intro oldPos newPos old new hchk hpos; exact List.Pairwise.nil
  | cons h rest ih =>
    intro oldPos newPos old new hchk hpos
    have hcpos : 1 ≤ h.countOld := hpos h (List.mem_cons_self h rest)
    obtain ⟨h1, _h3, _h4, _h6, h7⟩ := checkDiff_cons_decomp hchk hcpos
    refine List.Pairwise.cons ?_ ?_
    · intro h' hm'
      have hlt := checkDiff_lb rest (h.startOld - 1 + h.countOld)
        (newPos + (h.startOld - 1 - oldPos) + h.countNew)
        (old.drop ((h.startOld - 1 - oldPos) + h.countOld))
        (new.drop ((h.startOld - 1 - oldPos) + h.countNew))
        (by omega) h7 (fun x hx => hpos x (List.mem_cons_of_mem h hx)) h' hm'
      omega
    · exact ih (h.startOld - 1 + h.countOld)
        (newPos + (h.startOld - 1 - oldPos) + h.countNew)
        (old.drop ((h.startOld - 1 - oldPos) + h.countOld))
        (new.drop ((h.startOld - 1 - oldPos) + h.countNew))
        h7 (fun x hx => hpos x (List.mem_cons_of_mem h hx))

theorem sortDesc_eq_reverse (hs : List Hunk)
    (hasc : hs.Pairwise (fun a b => a.startOld < b.startOld)) :
    sortHunksDesc hs = hs.reverse := by
  haveI : IsAntisymm Hunk (fun a b => b.startOld < a.startOld) :=
    ⟨fun a b hab hba => absurd hba (by omega)⟩
  have hperm : (sortHunksDesc hs).Perm hs.reverse :=
    (sortHunksDesc_perm hs).trans (hs.reverse_perm).symm
  have hnd : ((hs.map Hunk.startOld)).Nodup := by
    have := List.pairwise_map.mpr hasc
    exact this.imp (fun hxy => Nat.ne_of_lt hxy)
  have hndM : ((sortHunksDesc hs).map Hunk.startOld).Nodup := by
    have hp : ((sortHunksDesc hs).map Hunk.startOld).Perm
        (hs.map Hunk.startOld) := (sortHunksDesc_perm hs).map Hunk.startOld
    exact (hp.nodup_iff).mpr hnd
  have hne : (sortHunksDesc hs).Pairwise
      (fun a b => a.startOld ≠ b.startOld) := List.pairwise_map.mp hndM
  have hsortedM : (sortHunksDesc hs).Pairwise
      (fun a b => b.startOld < a.startOld) := by
    have := (sortHunksDesc_sorted hs).and hne
    exact this.imp (fun hab => by omega)
  have hsortedR : hs.reverse.Pairwise (fun a b => b.startOld < a.startOld) :=
    List.pairwise_reverse.mpr hasc
  exact List.eq_of_perm_of_sorted hperm hsortedM hsortedR

/-! ### Claim theorems: applier and orchestrator -/

/-- C1 (amended): for every existing file and every hunk list that is the
parse of a unified diff generated against that file's content, in which
every hunk consumes at least one old line (countOld at least 1), applying
the full hunk list once with the Patch Applier on the existing file
produces exactly the new side of the diff. -/
theorem claim1_round_trip (old new : List String) (hs : List Hunk)
    (hdiff : isDiffOf old new hs = true)
    (hpos : ∀ h ∈ hs, 1 ≤ h.countOld) :
    applyHunksExisting old hs = new := by
  unfold applyHunksExisting
  rw [sortDesc_eq_reverse hs (checkDiff_pairwise hs 0 0 old new hdiff hpos)]
  rw [List.foldl_reverse]
  have hap := checkDiff_apply hs 0 0 old new [] hdiff hpos rfl
  simpa using hap

/-- C1 witness: the spec's Scenario A diff (replace the first two lines of
a two-line file) round-trips through the theorem. -/
theorem claim1_round_trip_witness :
    isDiffOf [("old"), ("line2")] [("new"), ("line2")]
        [⟨1, 2, 1, 2, [("new"), ("line2")]⟩] = true ∧
    applyHunksExisting [("old"), ("line2")]
        [⟨1, 2, 1, 2, [("new"), ("line2")]⟩] = [("new"), ("line2")] :=
  ⟨by decide, claim1_round_trip _ _ _ (by decide) (by decide)⟩

unseal List.merge List.mergeSort padWhile splitSections scanHunks scanHeredocs in
/-- C1 counterexample to the claim as stated: a zero-context pure
insertion hunk (countOld zero), exactly as parsed from a unified diff with
no context lines, is a valid diff of the file a-b to a-x-b, yet the
applier places the inserted line one position too early (before line 1
instead of after it), so the result is not the new side of the diff. -/
theorem claim1_round_trip_counterexample :
    parseDiffToFileHunks
        ("diff --git a/f b/f\n--- a/f\n+++ b/f\n@@ -1,0 +2,1 @@\n+x\n") =
      [(("f"), [⟨1, 0, 2, 1, [("x")]⟩])] ∧
    isDiffOf [("a"), ("b")] [("a"), ("x"), ("b")]
        [⟨1, 0, 2, 1, [("x")]⟩] = true ∧
    applyHunksExisting [("a"), ("b")] [⟨1, 0, 2, 1, [("x")]⟩]
        = [("x"), ("a"), ("b")] ∧
    applyHunksExisting [("a"), ("b")] [⟨1, 0, 2, 1, [("x")]⟩]
        ≠ [("a"), ("x"), ("b")] := by
  refine ⟨by decide, by decide, by decide, by decide⟩

/-- C3: the Patch Applier on an existing file processes the hunks in
descending startOld order (the processed list is a permutation of the
input sorted descending by startOld), and each step takes removal start
max(startOld - 1, 0), pads the line list with empty lines up to that
index, removes countOld lines there and inserts the replacement lines. -/
theorem claim3_descending_index_splice (lines : List String)
    (hunks : List Hunk) :
    (sortHunksDesc hunks).Perm hunks ∧
    (sortHunksDesc hunks).Pairwise (fun a b => b.startOld ≤ a.startOld) ∧
    (∀ (l : List String) (h : Hunk),
      applyOneHunk l h =
        (l ++ List.replicate (max (h.startOld - 1) 0 - l.length) "").take
            (max (h.startOld - 1) 0) ++
          h.newLines ++
          (l ++ List.replicate (max (h.startOld - 1) 0 - l.length) "").drop
            (max (h.startOld - 1) 0 + h.countOld)) ∧
    applyHunksExisting lines hunks
      = (sortHunksDesc hunks).foldl applyOneHunk lines := by
  refine ⟨sortHunksDesc_perm hunks, sortHunksDesc_sorted hunks, ?_, rfl⟩
  intro l h
  rw [applyOneHunk_eq_spec, specRemoveInsert_formula]
  simp [Nat.max_zero]

unseal List.merge List.mergeSort padWhile splitSections scanHunks scanHeredocs in
/-- C5: for a missing target file the Patch Applier synthesizes the
content by concatenating the replacement lines of the hunks sorted
ascending by startNew (the sorted list is an ascending permutation of the
input); in particular the spec's Scenario B new-file diff with one hunk
and two added lines yields exactly those two lines. -/
theorem claim5_new_file_synthesis :
    (∀ hs : List Hunk,
      (sortHunksAscNew hs).Perm hs ∧
      (sortHunksAscNew hs).Pairwise (fun a b => a.startNew ≤ b.startNew) ∧
      applyHunksToFileAbs none hs
        = ((sortHunksAscNew hs).map Hunk.newLines).flatten) ∧
    parseDiffToFileHunks
        ("diff --git a/y.txt b/y.txt\nnew file mode 100644\n--- /dev/null\n+++ b/y.txt\n@@ -0,0 +1,2 @@\n+l1\n+l2\n")
      = [(("y.txt"), [⟨0, 0, 1, 2, [("l1"), ("l2")]⟩])] ∧
    applyHunksToFileAbs none [⟨0, 0, 1, 2, [("l1"), ("l2")]⟩]
      = [("l1"), ("l2")] := by
  refine ⟨fun hs => ⟨sortHunksAscNew_perm hs, sortHunksAscNew_sorted hs, rfl⟩,
    by decide, by decide⟩

unseal List.merge List.mergeSort padWhile splitSections scanHunks scanHeredocs in
/-- C4 (amended): the forced apply fails with the distinct no-diff-blocks
error exactly when diff extraction yields no blocks; when blocks exist but
parse to no hunks at all, it instead completes successfully (reporting
forced success) without planning any write. -/
theorem claim4_no_diff_payload (s : String) (cwd : List String)
    (hempty : extractDiffBlocksFromScript s = []) :
    forceOverwriteFromScript cwd s =
      Except.error
        ("No diff blocks found in clipboard script for force overwrite.") := by
  unfold forceOverwriteFromScript
  rw [hempty]
  rfl

unseal List.merge List.mergeSort padWhile splitSections scanHunks scanHeredocs in
/-- C4 witness: a clipboard script with no heredoc and no diff marker
yields no blocks, so the forced apply fails with the distinct error. -/
theorem claim4_no_diff_payload_witness :
    extractDiffBlocksFromScript ("hello world") = [] ∧
    forceOverwriteFromScript [("repo")] ("hello world") =
      Except.error
        ("No diff blocks found in clipboard script for force overwrite.") :=
  ⟨by decide, claim4_no_diff_payload ("hello world") [("repo")] (by decide)⟩

unseal List.merge List.mergeSort padWhile splitSections scanHunks scanHeredocs in
/-- C4 counterexample to the claim as stated: a script that contains the
diff marker (so one diff block is extracted) but parses to no hunks makes
the forced apply return successfully with an empty write plan — the
orchestrator then reports forced success, not the no-diff-payload
failure. -/
theorem claim4_no_diff_payload_counterexample :
    extractDiffBlocksFromScript ("diff --git junk")
      = [(("diff --git junk").toList)] ∧
    parseDiffToFileHunks ("diff --git junk") = [] ∧
    forceOverwriteFromScript [("repo")] ("diff --git junk")
      = Except.ok [] := by
  refine ⟨by decide, by decide, by decide⟩

unseal List.merge List.mergeSort padWhile splitSections scanHunks scanHeredocs in
/-- C2: the forced apply performs no containment check on parsed target
paths: a diff whose b-side path carries a parent-directory segment is
joined onto the working directory and resolves outside it, so the write
plan targets a path that is not under the supplied root. -/
theorem claim2_path_escape :
    parseDiffToFileHunks
        ("diff --git a/../evil.txt b/../evil.txt\n--- a/../evil.txt\n+++ b/../evil.txt\n@@ -1,1 +1,1 @@\n+pwned\n")
      = [(("../evil.txt"), [⟨1, 1, 1, 1, [("pwned")]⟩])] ∧
    forceOverwriteFromScript [("repo"), ("proj")]
        ("diff --git a/../evil.txt b/../evil.txt\n--- a/../evil.txt\n+++ b/../evil.txt\n@@ -1,1 +1,1 @@\n+pwned\n")
      = Except.ok [([("repo"), ("evil.txt")], [⟨1, 1, 1, 1, [("pwned")]⟩])] ∧
    ¬ ([("repo"), ("proj")] <+: [("repo"), ("evil.txt")]) := by
  refine ⟨by decide, by decide, by decide⟩

/-! ### Claim theorem: body-line processing (C7) -/

/-- The per-line rule exactly as the specification states it: a blank line
is skipped; a line with prefix space or plus contributes the line with its
first character stripped; a line with prefix minus, or a no-newline marker
line, contributes nothing; any other non-empty line is kept verbatim. -/
def claimBodyLine (l : Chars) : Option String :=
  if l = [] then none
  else if l.head? = some ' ' ∨ l.head? = some '+' then some (l.tail.asString)
  else if l.head? = some '-' then none
  else if noNlMarker.isPrefixOf l then none
  else some l.asString

theorem foldl_bodyStep_append :
    ∀ (ls : List Chars) (acc : List String),
      ls.foldl bodyStep acc = acc ++ ls.filterMap claimBodyLine := by
  intro ls
  induction ls with
  | nil => intro acc; simp
  | cons l rest ih =>
    intro acc
    rw [List.foldl_cons, List.filterMap_cons]
    cases l with
    | nil =>
      simp only [bodyStep, claimBodyLine, if_pos rfl]
      exact ih acc
    | cons c restL =>
      by_cases h1 : c = ' '
      · subst h1
        simp [bodyStep, claimBodyLine, ih]
      · by_cases h2 : c = '+'
        · subst h2
          simp [bodyStep, claimBodyLine, ih]
        · by_cases h3 : c = '-'
          · subst h3
            simp [bodyStep, claimBodyLine, ih]
          · by_cases h4 : noNlMarker.isPrefixOf (c :: restL)
            · simp [bodyStep, claimBodyLine, h1, h2, h3, h4, ih]
            · simp [bodyStep, claimBodyLine, h1, h2, h3, h4, ih]

/-- C7: for every hunk body line list, the code's body loop produces
exactly the per-line rule of the claim: prefix space or plus keeps the
line stripped of its first character, prefix minus and no-newline marker
lines are excluded, any other non-empty line is kept verbatim, blank
lines are skipped. -/
theorem claim7_body_line_rule (bodyLines : List Chars) :
    processBodyLines bodyLines = bodyLines.filterMap claimBodyLine := by
  unfold processBodyLines
  simpa using foldl_bodyStep_append bodyLines []

/-! ### Claim theorems: the script extractor (C8, C9) -/

theorem asString_eq_empty_iff (l : Chars) : l.asString = "" ↔ l = [] := by
  constructor
  · intro h
    have h2 : l.asString.data = ("" : String).data := by rw [h]
    simpa [List.asString] using h2
  · intro h; subst h; rfl

theorem jsTrim_ne_nil_of_not_ws {cs : Chars} {c : Char}
    (hc : c ∈ cs) (hw : isWs c = false) : jsTrim cs ≠ [] := by
  intro hnil
  unfold jsTrim at hnil
  have hall : ∀ x ∈ trimRight cs, isWs x = true :=
    List.dropWhile_eq_nil_iff.mp hnil
  have hcrev : c ∈ cs.reverse := List.mem_reverse.mpr hc
  have hsplit := List.takeWhile_append_dropWhile isWs cs.reverse
  have hcr : c ∈ List.takeWhile isWs cs.reverse ++ List.dropWhile isWs cs.reverse := by
    rw [hsplit]; exact hcrev
  rcases List.mem_append.mp hcr with htw | hdw
  · have := List.mem_takeWhile_imp htw
    rw [hw] at this
    cases this
  · have hctr : c ∈ trimRight cs := by
      unfold trimRight
      exact List.mem_reverse.mpr hdw
    have := hall c hctr
    rw [hw] at this
    cases this

theorem gitApplySearch_some_not_ws :
    ∀ (s : Chars) (b : Bool) (m : Chars),
      gitApplySearchGo b s = some m → ∃ c ∈ m, isWs c = false := by
  intro s
  induction s with
  | nil => intro b m h; simp [gitApplySearchGo] at h
  | cons c rest ih =>
    intro b m h
    simp only [gitApplySearchGo] at h
    split at h
    · rename_i hcond
      cases h
      rcases Bool.or_eq_true_iff.mp hcond with h1 | h2
      · unfold alt1At at h1
        have hpre := ((Bool.and_eq_true _ _).mp h1).1
        rcases List.isPrefixOf_iff_prefix.mp hpre with ⟨t, ht⟩
        refine ⟨'(', ?_, by decide⟩
        rw [← ht]
        exact List.mem_append.mpr (Or.inl (by decide))
      · have hb := ((Bool.and_eq_true _ _).mp h2).2
        unfold alt2At gitWsApply at hb
        have hpre := ((Bool.and_eq_true _ _).mp hb).1
        rcases List.isPrefixOf_iff_prefix.mp hpre with ⟨t, ht⟩
        refine ⟨'g', ?_, by decide⟩
        have hg : 'g' ∈ (c :: rest).dropWhile isWs := by
          rw [← ht]
          exact List.mem_append.mpr (Or.inl (by decide))
        exact (List.dropWhile_sublist isWs).subset hg
    · exact ih (c = '\n') m h

theorem mem_normChars : ∀ (l : Chars) (c : Char), c ∈ normChars l → c ∈ l
  | [] => by intro c hc; simp [normChars] at hc
  | [a] => by intro c hc; simpa [normChars] using hc
  | a :: b :: rest => by
    intro c hc
    by_cases hab : a = '\r' ∧ b = '\n'
    · rw [show normChars (a :: b :: rest) = '\n' :: normChars rest from by
        simp [normChars, hab]] at hc
      rcases List.mem_cons.mp hc with rfl | hmem
      · simp [hab.2]
      · have hin := mem_normChars rest c hmem
        simp [hin]
    · rw [show normChars (a :: b :: rest) = a :: normChars (b :: rest) from by
        simp [normChars, hab]] at hc
      rcases List.mem_cons.mp hc with rfl | hmem
      · simp
      · have hin := mem_normChars (b :: rest) c hmem
        simp at hin ⊢
        tauto

theorem jsTrim_nil_of_ws {l : Chars} (h : l.all isWs = true) : jsTrim l = [] := by
  unfold jsTrim trimRight
  have h1 : l.reverse.dropWhile isWs = [] :=
    List.dropWhile_eq_nil_iff.mpr
      (fun x hx => (List.all_eq_true.mp h) x (List.mem_reverse.mp hx))
  rw [h1]
  rfl

theorem defencedText_nil_of_ws (rawText : String)
    (h : rawText.toList.all isWs = true) : defencedText rawText = [] := by
  have hnormall : (normChars rawText.toList).all isWs = true := by
    rw [List.all_eq_true] at h ⊢
    intro x hx
    exact h x (mem_normChars _ x hx)
  have htrim := jsTrim_nil_of_ws hnormall
  unfold defencedText
  rw [htrim]
  rfl

/-- C9 (amended): the Script Extractor returns the empty string exactly
when the normalized, trimmed and fence-stripped text is empty — that is,
when the input is empty or whitespace-only, or consists of code-fence
markers enclosing only whitespace; every whitespace-only input does map
to the empty result. -/
theorem claim9_empty_output (rawText : String) :
    (extractScriptFromClipboard rawText = "" ↔ defencedText rawText = []) ∧
    (rawText.toList.all isWs = true → extractScriptFromClipboard rawText = "") := by
  have hiff : extractScriptFromClipboard rawText = "" ↔
      defencedText rawText = [] := by
    constructor
    · intro h
      unfold extractScriptFromClipboard at h
      split at h
      · rename_i hraw
        subst hraw
        rfl
      · split at h
        · rename_i m hgs
          obtain ⟨c, hcm, hcw⟩ := gitApplySearch_some_not_ws _ true m hgs
          exact absurd ((asString_eq_empty_iff _).mp h)
            (jsTrim_ne_nil_of_not_ws hcm hcw)
        · exact (asString_eq_empty_iff _).mp h
    · intro h
      unfold extractScriptFromClipboard
      split
      · rfl
      · rw [h]
        rfl
  exact ⟨hiff, fun hws => hiff.mpr (defencedText_nil_of_ws rawText hws)⟩

/-- C9 witness: a whitespace-only input yields the empty result through
the theorem. -/
theorem claim9_empty_output_witness :
    extractScriptFromClipboard ("  \n\t ") = "" :=
  (claim9_empty_output ("  \n\t ")).2 (by decide)

/-- C9 counterexample to the claim as stated: the input consisting of a
single code-fence line is neither empty nor whitespace-only, yet the
extractor returns the empty string (the fence strip deletes the whole
input). -/
theorem claim9_counterexample :
    extractScriptFromClipboard ("```") = "" ∧
    ("```" : String) ≠ "" ∧
    (("```" : String).toList.all isWs) = false :=
  ⟨by decide, by decide, by decide⟩

theorem isPrefixOf_self_append : ∀ (l x : Chars), l.isPrefixOf (l ++ x) = true := by
  intro l
  induction l with
  | nil => intro x; simp
  | cons c rest ih =>
    intro x
    simp only [List.cons_append, List.isPrefixOf_cons₂_self]
    exact ih x

theorem dropWhile_append_all {p : Char → Bool} :
    ∀ {a : Chars} (b : Chars), (∀ c ∈ a, p c = true) →
      List.dropWhile p (a ++ b) = List.dropWhile p b := by
  intro a
  induction a with
  | nil => intro b _; rfl
  | cons c rest ih =>
    intro b hall
    have hc : p c = true := hall c (List.mem_cons_self c rest)
    simp only [List.cons_append, List.dropWhile_cons, hc, if_pos]
    exact ih b (fun x hx => hall x (List.mem_cons_of_mem c hx))

theorem normChars_front {a : Chars} :
    ∀ (b : Chars), (∀ c ∈ a, c ≠ '\r') → normChars (a ++ b) = a ++ normChars b := by
  induction a with
  | nil => intro b _; rfl
  | cons x a2 ih =>
    intro b hall
    have hx : x ≠ '\r' := hall x (List.mem_cons_self x a2)
    cases hE : a2 ++ b with
    | nil =>
      have ha2 : a2 = [] := by
        cases a2
        · rfl
        · simp at hE
      have hb : b = [] := by
        cases b
        · rfl
        · rw [ha2] at hE
          simp at hE
      subst ha2
      subst hb
      rfl
    | cons y t =>
      have h1 : normChars (x :: (a2 ++ b)) = x :: normChars (a2 ++ b) := by
        rw [hE]
        simp only [normChars]
        rw [if_neg (by tauto)]
      simp only [List.cons_append] at h1 ⊢
      rw [h1, ih b (fun c hc => hall c (List.mem_cons_of_mem x hc))]

theorem normChars_split :
    ∀ (a b : Chars), b.head? ≠ some '\n' →
      normChars (a ++ b) = normChars a ++ normChars b
  | [], b => fun _ => rfl
  | [x], b => fun hb => by
    cases b with
    | nil => simp [normChars]
    | cons y t =>
      have hy : y ≠ '\n' := fun he => hb (by simp [he])
      have h1 : normChars (x :: y :: t) = x :: normChars (y :: t) := by
        simp only [normChars]
        rw [if_neg (by tauto)]
      simp only [List.singleton_append]
      rw [h1]
      rfl
  | x :: y :: a2, b => fun hb => by
    by_cases hxy : x = '\r' ∧ y = '\n'
    · have h1 : normChars (x :: y :: (a2 ++ b)) = '\n' :: normChars (a2 ++ b) := by
        simp only [normChars]
        rw [if_pos hxy]
      have h2 : normChars (x :: y :: a2) = '\n' :: normChars a2 := by
        simp only [normChars]
        rw [if_pos hxy]
      have h3 := normChars_split a2 b hb
      simp only [List.cons_append]
      rw [h1, h2, h3]
      rfl
    · have h1 : normChars (x :: (y :: (a2 ++ b))) = x :: normChars (y :: (a2 ++ b)) := by
        simp only [normChars]
        rw [if_neg hxy]
      have h2 : normChars (x :: y :: a2) = x :: normChars (y :: a2) := by
        simp only [normChars]
        rw [if_neg hxy]
      have h3 := normChars_split (y :: a2) b hb
      simp only [List.cons_append] at h3 ⊢
      rw [h1, h2, h3]
      rfl

theorem dropWhile_concat (p : Char → Bool) :
    ∀ (y : Chars) (c : Char),
      List.dropWhile p (y ++ [c]) =
        if List.dropWhile p y = [] then (if p c then [] else [c])
        else List.dropWhile p y ++ [c] := by
  intro y
  induction y with
  | nil =>
    intro c
    simp [List.dropWhile_cons]
  | cons d y2 ih =>
    intro c
    by_cases hd : p d
    · simp only [List.cons_append, List.dropWhile_cons, hd, if_pos]
      exact ih c
    · simp [List.dropWhile_cons, hd]

theorem trimRight_cons (c : Char) (X : Chars) :
    trimRight (c :: X) =
      if trimRight X = [] then (if isWs c then [] else [c])
      else c :: trimRight X := by
  unfold trimRight
  rw [List.reverse_cons, dropWhile_concat]
  by_cases h0 : List.dropWhile isWs X.reverse = [] <;> by_cases hc : isWs c <;>
    simp [h0, hc]

theorem trimRight_append_ws {w : Char} (hw : isWs w = true) (l : Chars) :
    trimRight (l ++ [w]) = trimRight l := by
  unfold trimRight
  rw [List.reverse_append]
  simp [List.dropWhile_cons, hw]

theorem trimRight_norm_newline :
    ∀ (u : Chars), trimRight (normChars (u ++ ['\n'])) = trimRight (normChars u)
  | [] => by
    simp [normChars, trimRight, List.dropWhile_cons, isWs]
  | [a] => by
    by_cases ha : a = '\r'
    · subst ha
      have h1 : normChars ['\r', '\n'] = ['\n'] := by
        simp [normChars]
      have h2 : normChars ['\r'] = ['\r'] := by
        simp [normChars]
      rw [show (['\r'] ++ ['\n'] : Chars) = ['\r', '\n'] from rfl, h1, h2]
      simp [trimRight, List.dropWhile_cons, isWs]
    · have h1 : normChars [a, '\n'] = a :: normChars ['\n'] := by
        simp only [normChars]
        rw [if_neg (by tauto)]
      have h2 : normChars ['\n'] = ['\n'] := by simp [normChars]
      rw [show ([a] ++ ['\n'] : Chars) = [a, '\n'] from rfl, h1, h2,
        show (a :: ['\n'] : Chars) = [a] ++ ['\n'] from rfl,
        trimRight_append_ws (by decide)]
      rfl
  | x :: y :: u2 => by
    by_cases hxy : x = '\r' ∧ y = '\n'
    · have h1 : normChars (x :: y :: (u2 ++ ['\n'])) = '\n' :: normChars (u2 ++ ['\n']) := by
        simp only [normChars]
        rw [if_pos hxy]
      have h2 : normChars (x :: y :: u2) = '\n' :: normChars u2 := by
        simp only [normChars]
        rw [if_pos hxy]
      have h3 := trimRight_norm_newline u2
      simp only [List.cons_append]
      rw [h1, h2, trimRight_cons, trimRight_cons, h3]
    · have h1 : normChars (x :: (y :: (u2 ++ ['\n']))) = x :: normChars (y :: (u2 ++ ['\n'])) := by
        simp only [normChars]
        rw [if_neg hxy]
      have h2 : normChars (x :: y :: u2) = x :: normChars (y :: u2) := by
        simp only [normChars]
        rw [if_neg hxy]
      have h3 := trimRight_norm_newline (y :: u2)
      simp only [List.cons_append] at h3 ⊢
      rw [h1, h2, trimRight_cons, trimRight_cons, h3]

theorem jsTrim_norm_newline (u : Chars) :
    jsTrim (normChars (u ++ ['\n'])) = jsTrim (normChars u) := by
  unfold jsTrim
  rw [trimRight_norm_newline]

/-- The backtick character (code point 96). -/
def tick : Char := Char.ofNat 96

theorem jsTrim_tick (u : Chars) :
    jsTrim (tick :: (u ++ [tick])) = tick :: (u ++ [tick]) := by
  have htw : isWs tick = false := by decide
  unfold jsTrim
  have h1 : trimRight (tick :: (u ++ [tick])) = tick :: (u ++ [tick]) := by
    unfold trimRight
    rw [show (tick :: (u ++ [tick]) : Chars) = (tick :: u) ++ [tick] from by simp,
      List.reverse_append]
    simp [List.dropWhile_cons, htw]
  rw [h1]
  simp [List.dropWhile_cons, htw]

theorem isSuffixOf_append_self (u t : Chars) : t.isSuffixOf (u ++ t) = true := by
  unfold List.isSuffixOf
  rw [List.reverse_append]
  exact isPrefixOf_self_append t.reverse u.reverse

/-- The canonical fenced wrapping of a content string: an opening fence
with a language tag, the content on its own lines, and a closing fence. -/
def fenceWrap (lang content : String) : String :=
  "```" ++ lang ++ "\n" ++ content ++ "\n```"

theorem fenceWrap_toList (lang content : String) :
    (fenceWrap lang content).toList =
      (fenceTok ++ lang.toList ++ ['\n']) ++
        ((content.toList ++ ['\n']) ++ fenceTok) := by
  simp only [fenceWrap, String.toList, String.data_append, fenceTok]
  simp [List.append_assoc]

theorem defenced_fenceWrap (lang content : String)
    (hlang : ∀ c ∈ lang.toList, c ≠ '\n' ∧ c ≠ '\r')
    (hfence : fenceTok.isPrefixOf (jsTrim (normChars content.toList)) = false) :
    defencedText (fenceWrap lang content) = defencedText content := by
  have hA : ∀ c ∈ fenceTok ++ lang.toList ++ ['\n'], c ≠ '\r' := by
    intro c hc
    rcases List.mem_append.mp hc with hc1 | hc2
    · rcases List.mem_append.mp hc1 with hc3 | hc4
      · have hct : c = tick ∨ c = tick ∨ c = tick := by
          simpa [show fenceTok = [tick, tick, tick] from by decide] using hc3
        rcases hct with rfl | rfl | rfl <;> decide
      · exact (hlang c hc4).2
    · simp at hc2
      subst hc2
      decide
  have hnorm : normChars ((fenceWrap lang content).toList) =
      (fenceTok ++ lang.toList ++ ['\n']) ++
        (normChars (content.toList ++ ['\n']) ++ fenceTok) := by
    rw [fenceWrap_toList, normChars_front _ hA,
      normChars_split (content.toList ++ ['\n']) fenceTok (by decide),
      show normChars fenceTok = fenceTok from by decide]
  have hshape : (fenceTok ++ lang.toList ++ ['\n']) ++
      (normChars (content.toList ++ ['\n']) ++ fenceTok) =
      tick :: ((tick :: tick :: lang.toList ++ ['\n'] ++
        normChars (content.toList ++ ['\n']) ++ [tick, tick]) ++ [tick]) := by
    rw [show fenceTok = [tick, tick, tick] from by decide]
    simp [List.append_assoc]
  have htrim : jsTrim (normChars ((fenceWrap lang content).toList)) =
      (fenceTok ++ lang.toList ++ ['\n']) ++
        (normChars (content.toList ++ ['\n']) ++ fenceTok) := by
    rw [hnorm, hshape, jsTrim_tick, ← hshape]
  have hprefT : fenceTok.isPrefixOf
      ((fenceTok ++ lang.toList ++ ['\n']) ++
        (normChars (content.toList ++ ['\n']) ++ fenceTok)) = true := by
    rw [show (fenceTok ++ lang.toList ++ ['\n']) ++
        (normChars (content.toList ++ ['\n']) ++ fenceTok) =
        fenceTok ++ (lang.toList ++ ['\n'] ++
          (normChars (content.toList ++ ['\n']) ++ fenceTok)) from by
      simp [List.append_assoc]]
    exact isPrefixOf_self_append _ _
  have hopen : stripOpenFence
      ((fenceTok ++ lang.toList ++ ['\n']) ++
        (normChars (content.toList ++ ['\n']) ++ fenceTok)) =
      normChars (content.toList ++ ['\n']) ++ fenceTok := by
    unfold stripOpenFence
    rw [if_pos hprefT]
    rw [show (fenceTok ++ lang.toList ++ ['\n']) ++
        (normChars (content.toList ++ ['\n']) ++ fenceTok) =
        fenceTok ++ (lang.toList ++ ('\n' ::
          (normChars (content.toList ++ ['\n']) ++ fenceTok))) from by
      simp [List.append_assoc]]
    rw [show (3 : Nat) = fenceTok.length from rfl, List.drop_left]
    rw [dropWhile_append_all _ (fun c hc => by
      simp only [decide_eq_true_eq]
      exact (hlang c hc).1)]
    simp [List.dropWhile_cons, stripLeadNl]
  have hclose : stripCloseFence
      (normChars (content.toList ++ ['\n']) ++ fenceTok) =
      normChars (content.toList ++ ['\n']) := by
    unfold stripCloseFence
    rw [if_pos (isSuffixOf_append_self _ _)]
    have hlen : (normChars (content.toList ++ ['\n']) ++ fenceTok).length - 3 =
        (normChars (content.toList ++ ['\n'])).length := by
      simp [fenceTok]
    rw [hlen, List.take_left]
  unfold defencedText
  rw [htrim, if_pos hprefT, hopen, hclose, jsTrim_norm_newline, hfence,
    if_neg (by simp)]

/-- C8 (amended): for every input wrapped in a fenced code block (opening
fence with a language tag free of newlines and carriage returns, closing
fence) whose enclosed content does not itself begin with a fence marker
after normalization and trimming, the Script Extractor returns output
identical to what it returns for the unfenced content. -/
theorem claim8_fence_strip (lang content : String)
    (hlang : ∀ c ∈ lang.toList, c ≠ '\n' ∧ c ≠ '\r')
    (hfence : fenceTok.isPrefixOf (jsTrim (normChars content.toList)) = false) :
    extractScriptFromClipboard (fenceWrap lang content) =
      extractScriptFromClipboard content := by
  have hD := defenced_fenceWrap lang content hlang hfence
  have hFne : fenceWrap lang content ≠ "" := by
    intro h
    have h2 : (fenceWrap lang content).toList = [] := by rw [h]; rfl
    rw [fenceWrap_toList] at h2
    simp [fenceTok] at h2
  unfold extractScriptFromClipboard
  rw [if_neg hFne, hD]
  by_cases hc : content = ""
  · rw [if_pos hc]
    subst hc
    rfl
  · rw [if_neg hc]

/-- C8 witness: a fenced git-apply command extracts to the same script as
its unfenced equivalent. -/
theorem claim8_fence_strip_witness :
    extractScriptFromClipboard (fenceWrap ("bash") ("git apply x")) =
      extractScriptFromClipboard ("git apply x") :=
  claim8_fence_strip ("bash") ("git apply x") (by decide) (by decide)

/-- C8 counterexample to the claim as stated: wrapping the content that is
itself a bare fence line changes the result — the fenced input extracts
to the fence line, while the unfenced content extracts to the empty
string (its own fence-strip consumes it). -/
theorem claim8_counterexample :
    fenceWrap ("") ("```") = ("```\n```\n```" : String) ∧
    extractScriptFromClipboard ("```\n```\n```") = ("```" : String) ∧
    extractScriptFromClipboard ("```") = ("" : String) ∧
    (("```" : String) ≠ ("" : String)) :=
  ⟨by decide, by decide, by decide, by decide⟩

/-! ### Canonical rendered diffs (for the parser claim) -/

/-- A source-level hunk description: the header fields as written (counts
optional, omitted counts defaulting to one on parse) and the raw body
lines. -/
structure HunkSrc where
  srcStartOld : Nat
  srcCountOld : Option Nat
  srcStartNew : Nat
  srcCountNew : Option Nat
  srcBody : List Chars
deriving DecidableEq, Repr

/-- The decimal digit characters. -/
def digitChar : Nat → Char
  | 0 => '0'
  | 1 => '1'
  | 2 => '2'
  | 3 => '3'
  | 4 => '4'
  | 5 => '5'
  | 6 => '6'
  | 7 => '7'
  | 8 => '8'
  | _ => '9'

/-- Decimal rendering of a natural number, most significant digit
first. -/
def renderNat (n : Nat) : Chars :=
  if n < 10 then [digitChar n] else renderNat (n / 10) ++ [digitChar (n % 10)]
termination_by n
decreasing_by exact Nat.div_lt_self (by omega) (by omega)

theorem digitChar_isDigit {d : Nat} (h : d < 10) : (digitChar d).isDigit = true := by
  interval_cases d <;> decide

theorem digitChar_val {d : Nat} (h : d < 10) : (digitChar d).toNat - 48 = d := by
  interval_cases d <;> decide

theorem renderNat_digits : ∀ (n : Nat), ∀ c ∈ renderNat n, c.isDigit = true := by
  intro n
  rw [renderNat]
  split
  · rename_i hlt
    intro c hc
    simp at hc
    subst hc
    exact digitChar_isDigit hlt
  · rename_i hge
    intro c hc
    rcases List.mem_append.mp hc with h1 | h2
    · exact renderNat_digits (n / 10) c h1
    · simp at h2
      subst h2
      exact digitChar_isDigit (Nat.mod_lt n (by omega))
termination_by n => n
decreasing_by exact Nat.div_lt_self (by omega) (by omega)

theorem renderNat_ne_nil (n : Nat) : renderNat n ≠ [] := by
  rw [renderNat]
  split
  · simp
  · simp

theorem parseNat_renderNat_fold :
    ∀ (n a : Nat),
      List.foldl (fun a c => a * 10 + (c.toNat - 48)) a (renderNat n) =
        a * 10 ^ (renderNat n).length + n := by
  intro n
  rw [renderNat]
  split
  · rename_i hlt
    intro a
    simp [digitChar_val hlt]
  · rename_i hge
    intro a
    rw [List.foldl_append, parseNat_renderNat_fold (n / 10) a]
    simp only [List.foldl_cons, List.foldl_nil, List.length_append,
      List.length_cons, List.length_nil]
    rw [digitChar_val (Nat.mod_lt n (by omega))]
    rw [pow_succ]
    have hmod := Nat.div_add_mod n 10
    ring_nf
    omega
termination_by n => n
decreasing_by exact Nat.div_lt_self (by omega) (by omega)

theorem parseNat_renderNat (n : Nat) : parseNat (renderNat n) = n := by
  unfold parseNat
  rw [parseNat_renderNat_fold n 0]
  simp

theorem takeWhile_append_all {p : Char → Bool} :
    ∀ {a : Chars} (b : Chars), (∀ c ∈ a, p c = true) →
      List.takeWhile p (a ++ b) = a ++ List.takeWhile p b := by
  intro a
  induction a with
  | nil => intro b _; rfl
  | cons c rest ih =>
    intro b hall
    have hc : p c = true := hall c (List.mem_cons_self c rest)
    simp only [List.cons_append, List.takeWhile_cons, hc, if_pos]
    rw [ih b (fun x hx => hall x (List.mem_cons_of_mem c hx))]

theorem parseDigits_renderNat (n : Nat) (c : Char) (rest : Chars)
    (hc : c.isDigit = false) :
    parseDigits (renderNat n ++ c :: rest) = some (n, c :: rest) := by
  unfold parseDigits
  rw [takeWhile_append_all (c :: rest) (renderNat_digits n)]
  rw [show List.takeWhile Char.isDigit (c :: rest) = [] from by
    simp [List.takeWhile_cons, hc]]
  rw [List.append_nil]
  rw [if_neg (by simp [renderNat_ne_nil n])]
  rw [parseNat_renderNat, List.drop_left]

/-- The rendered optional count group: nothing, or a comma and the
count. -/
def renderCount : Option Nat → Chars
  | none => []
  | some c => ',' :: renderNat c

/-- The rendered hunk header, in the canonical single-space format. -/
def renderHeader (h : HunkSrc) : Chars :=
  '@' :: '@' :: ' ' :: '-' ::
    (renderNat h.srcStartOld ++ (renderCount h.srcCountOld ++
      (' ' :: '+' :: (renderNat h.srcStartNew ++ (renderCount h.srcCountNew ++
        (' ' :: '@' :: '@' :: []))))))

/-- Newline-terminated join of a list of lines. -/
def joinLinesNl (ls : List Chars) : Chars :=
  (ls.map (fun l => l ++ ['\n'])).flatten

/-- The rendered hunk blocks: each hunk is its header line followed by its
newline-terminated body lines. -/
def renderBlocks : List HunkSrc → Chars
  | [] => []
  | h :: rest =>
    renderHeader h ++ ('\n' :: (joinLinesNl h.srcBody ++ renderBlocks rest))

/-- The body text captured for a hunk: a newline before each body
line. -/
def bodyOf : List Chars → Chars
  | [] => []
  | b :: rest => '\n' :: (b ++ bodyOf rest)

/-- Conditions on one rendered body line: no embedded newline, and it must
not begin with a hunk-header or file-section token (in a real unified diff
every body line begins with space, plus, minus or backslash, so this
holds). -/
def bodyLineOk (l : Chars) : Prop :=
  '\n' ∉ l ∧ ¬ atat <+: l ∧ ¬ dgTok <+: l

/-- All body lines of a hunk are well formed. -/
def srcOk (h : HunkSrc) : Prop :=
  ∀ l ∈ h.srcBody, bodyLineOk l

/-- The terminator shape required after a rendered region: a new hunk
header, a new file section, or the end of input. -/
def termNext (next : Chars) : Prop :=
  atat <+: next ∨ dgTok <+: next ∨ next = []

/-- The parsed hunk expected from a source hunk description: counts
defaulted to one when omitted, and the body lines processed by the body
loop. -/
def toHunk (h : HunkSrc) : Hunk :=
  ⟨h.srcStartOld, h.srcCountOld.getD 1, h.srcStartNew, h.srcCountNew.getD 1,
    processBodyLines h.srcBody⟩

theorem region_eq_bodyOf :
    ∀ (bs : List Chars) (next : Chars),
      '\n' :: (joinLinesNl bs ++ next) = bodyOf bs ++ ('\n' :: next) := by
  intro bs
  induction bs with
  | nil => intro next; simp [joinLinesNl, bodyOf]
  | cons b rest ih =>
    intro next
    simp only [joinLinesNl, List.map_cons, List.flatten_cons, bodyOf] at ih ⊢
    rw [show ((b ++ ['\n']) ++ (rest.map (fun l => l ++ ['\n'])).flatten ++ next : Chars)
      = b ++ ('\n' :: ((rest.map (fun l => l ++ ['\n'])).flatten ++ next)) from by
      simp [List.append_assoc]]
    rw [ih next]
    simp [List.append_assoc]

theorem prefix_append_no_nl {tok b X : Chars}
    (hnotok : ¬ tok <+: b) (hnl : '\n' ∉ tok) (hX : X.head? = some '\n') :
    tok.isPrefixOf (b ++ X) = false := by
  by_contra hcon
  have htrue : tok.isPrefixOf (b ++ X) = true := by
    cases hval : tok.isPrefixOf (b ++ X)
    · exact absurd hval hcon
    · rfl
  have hpre : tok <+: (b ++ X) := List.isPrefixOf_iff_prefix.mp htrue
  by_cases hlen : tok.length ≤ b.length
  · exact hnotok (List.prefix_of_prefix_length_le hpre (List.prefix_append b X) hlen)
  · have hbp : b <+: tok :=
      List.prefix_of_prefix_length_le (List.prefix_append b X) hpre (by omega)
    rcases hbp with ⟨t2, ht2⟩
    rcases hpre with ⟨t3, ht3⟩
    have ht2ne : t2 ≠ [] := by
      intro he
      rw [he] at ht2
      simp at ht2
      rw [ht2] at hlen
      omega
    have hXeq : t2 ++ t3 = X := by
      rw [← ht2] at ht3
      rw [List.append_assoc] at ht3
      exact List.append_cancel_left ht3
    have hhd : t2.head? = some '\n' := by
      cases t2 with
      | nil => exact absurd rfl ht2ne
      | cons a t2' =>
        rw [← hXeq] at hX
        simpa using hX
    have hmem : '\n' ∈ tok := by
      rw [← ht2]
      cases t2 with
      | nil => exact absurd rfl ht2ne
      | cons a t2' =>
        simp at hhd
        subst hhd
        exact List.mem_append.mpr (Or.inr (List.mem_cons_self _ _))
    exact hnl hmem

theorem isTerm_not_nl {c : Char} {t : Chars} (h : c ≠ '\n') :
    isTerm (c :: t) = false := by
  unfold isTerm
  split
  · rename_i heq
    cases heq
    exact absurd rfl h
  · rfl

theorem isTerm_nl_true {r : Chars} (h : termNext r) : isTerm ('\n' :: r) = true := by
  simp only [isTerm]
  rcases h with h1 | h2 | h3
  · rw [List.isPrefixOf_iff_prefix.mpr h1]
    simp
  · rw [List.isPrefixOf_iff_prefix.mpr h2]
    simp
  · subst h3
    simp

theorem findBody_walk {b : Chars} :
    ∀ (r : Chars), '\n' ∉ b →
      findBody (b ++ r) = (findBody r).map (fun q => (b ++ q.1, q.2)) := by
  induction b with
  | nil =>
    intro r _
    simp only [List.nil_append]
    cases findBody r with
    | none => simp
    | some q => simp
  | cons c b2 ih =>
    intro r hnl
    have hc : c ≠ '\n' := by
      intro he
      exact hnl (by rw [he]; exact List.mem_cons_self _ _)
    rw [List.cons_append, findBody, if_neg (by rw [isTerm_not_nl hc]; simp)]
    rw [ih r (fun hmem => hnl (List.mem_cons_of_mem c hmem))]
    cases findBody r with
    | none => simp
    | some q => simp

theorem bodyOf_head (rest : List Chars) (next : Chars) :
    (bodyOf rest ++ ('\n' :: next)).head? = some '\n' := by
  cases rest with
  | nil => simp [bodyOf]
  | cons r rs => simp [bodyOf]

theorem findBody_render :
    ∀ (bs : List Chars) (next : Chars),
      (∀ b ∈ bs, bodyLineOk b) → termNext next →
      findBody (bodyOf bs ++ ('\n' :: next)) = some (bodyOf bs, '\n' :: next) := by
  intro bs
  induction bs with
  | nil =>
    intro next _ hnext
    simp only [bodyOf, List.nil_append]
    rw [findBody, if_pos (by rw [isTerm_nl_true hnext])]
  | cons b rest ih =>
    intro next hok hnext
    have hbody := hok b (List.mem_cons_self b rest)
    have hshape : bodyOf (b :: rest) ++ ('\n' :: next) =
        '\n' :: (b ++ (bodyOf rest ++ ('\n' :: next))) := by
      simp [bodyOf, List.append_assoc]
    rw [hshape]
    have hat : atat.isPrefixOf (b ++ (bodyOf rest ++ ('\n' :: next))) = false :=
      prefix_append_no_nl hbody.2.1 (by decide) (bodyOf_head rest next)
    have hdg : dgTok.isPrefixOf (b ++ (bodyOf rest ++ ('\n' :: next))) = false :=
      prefix_append_no_nl hbody.2.2 (by decide) (bodyOf_head rest next)
    have hne : (b ++ (bodyOf rest ++ ('\n' :: next))) ≠ [] := by
      cases b <;> simp [bodyOf]
    have hterm : isTerm ('\n' :: (b ++ (bodyOf rest ++ ('\n' :: next)))) = false := by
      simp only [isTerm]
      rw [hat, hdg]
      simp [hne]
    rw [findBody, if_neg (by rw [hterm]; simp)]
    rw [findBody_walk (bodyOf rest ++ ('\n' :: next)) hbody.1]
    rw [ih next (fun x hx => hok x (List.mem_cons_of_mem b hx)) hnext]
    simp [bodyOf, List.append_assoc]

theorem split_no_sep {b : Chars} (h : '\n' ∉ b) : splitOnChar '\n' b = [b] := by
  induction b with
  | nil => rfl
  | cons c b2 ih =>
    have hc : c ≠ '\n' := fun he => h (by rw [he]; exact List.mem_cons_self _ _)
    have hb2 : '\n' ∉ b2 := fun hm => h (List.mem_cons_of_mem c hm)
    simp only [splitOnChar, if_neg hc, ih hb2]

theorem split_walk {b : Chars} (h : '\n' ∉ b) :
    ∀ (r s : Chars) (ss : List Chars), splitOnChar '\n' r = s :: ss →
      splitOnChar '\n' (b ++ r) = (b ++ s) :: ss := by
  induction b with
  | nil => intro r s ss hr; simpa using hr
  | cons c b2 ih =>
    intro r s ss hr
    have hc : c ≠ '\n' := fun he => h (by rw [he]; exact List.mem_cons_self _ _)
    have hb2 : '\n' ∉ b2 := fun hm => h (List.mem_cons_of_mem c hm)
    simp only [List.cons_append, splitOnChar, if_neg hc, List.append_eq]
    rw [ih hb2 r s ss hr]

theorem split_bodyOf :
    ∀ (bs : List Chars) (b : Chars), '\n' ∉ b → (∀ x ∈ bs, '\n' ∉ x) →
      splitOnChar '\n' (b ++ bodyOf bs) = b :: bs := by
  intro bs
  induction bs with
  | nil =>
    intro b hb _
    rw [show bodyOf [] = [] from rfl, List.append_nil]
    exact split_no_sep hb
  | cons b2 rest ih =>
    intro b hb hall
    have hb2 : '\n' ∉ b2 := hall b2 (List.mem_cons_self b2 rest)
    have hsplit2 := ih b2 hb2 (fun x hx => hall x (List.mem_cons_of_mem b2 hx))
    rw [show bodyOf (b2 :: rest) = '\n' :: (b2 ++ bodyOf rest) from rfl]
    have h2 : splitOnChar '\n' ('\n' :: (b2 ++ bodyOf rest)) = [] :: (b2 :: rest) := by
      simp only [splitOnChar, hsplit2]
      simp
    have h3 := split_walk hb _ _ _ h2
    simpa using h3

theorem bodyToNewLines_bodyOf (bs : List Chars) (hall : ∀ x ∈ bs, '\n' ∉ x) :
    bodyToNewLines (bodyOf bs) = processBodyLines bs := by
  cases bs with
  | nil => rfl
  | cons b rest =>
    unfold bodyToNewLines
    rw [show bodyOf (b :: rest) = '\n' :: (b ++ bodyOf rest) from rfl]
    rw [show stripLeadNl ('\n' :: (b ++ bodyOf rest)) = b ++ bodyOf rest from rfl]
    rw [split_bodyOf rest b (hall b (List.mem_cons_self b rest))
      (fun x hx => hall x (List.mem_cons_of_mem b hx))]

theorem dropPref_atat (X : Chars) : dropPref atat ('@' :: '@' :: X) = some X := by
  simp [dropPref, atat, List.isPrefixOf]

theorem dropPref_dash (X : Chars) : dropPref ['-'] ('-' :: X) = some X := by
  simp [dropPref, List.isPrefixOf]

theorem dropPref_plus (X : Chars) : dropPref ['+'] ('+' :: X) = some X := by
  simp [dropPref, List.isPrefixOf]

theorem ws_drop_dash (X : Chars) :
    List.dropWhile isWs (' ' :: '-' :: X) = '-' :: X := by
  rw [List.dropWhile_cons, if_pos (by decide), List.dropWhile_cons,
    if_neg (by decide)]

theorem wsPlus_space_plus (X : Chars) : wsPlus (' ' :: '+' :: X) = some ('+' :: X) := by
  simp only [wsPlus, if_pos (show isWs ' ' = true from by decide)]
  rw [List.dropWhile_cons, if_neg (by decide)]

theorem wsPlus_space_at (X : Chars) : wsPlus (' ' :: '@' :: X) = some ('@' :: X) := by
  simp only [wsPlus, if_pos (show isWs ' ' = true from by decide)]
  rw [List.dropWhile_cons, if_neg (by decide)]

theorem optComma_space (X : Chars) : optComma (' ' :: X) = some (none, ' ' :: X) := rfl

theorem parseDigits_render_space (n : Nat) (rest : Chars) :
    parseDigits (renderNat n ++ ' ' :: rest) = some (n, ' ' :: rest) :=
  parseDigits_renderNat n ' ' rest (by decide)

theorem parseDigits_render_comma (n : Nat) (rest : Chars) :
    parseDigits (renderNat n ++ ',' :: rest) = some (n, ',' :: rest) :=
  parseDigits_renderNat n ',' rest (by decide)

theorem optComma_comma (n : Nat) (X : Chars) :
    optComma (',' :: (renderNat n ++ ' ' :: X)) = some (some n, ' ' :: X) := by
  simp only [optComma, parseDigits_render_space]
  rfl

theorem matchHunkAt_render (h : HunkSrc) (next : Chars)
    (hok : srcOk h) (hnext : termNext next) :
    matchHunkAt (renderHeader h ++ ('\n' :: (joinLinesNl h.srcBody ++ next))) =
      some (toHunk h, '\n' :: next) := by
  obtain ⟨a, b, c, d, bs⟩ := h
  have hbody : ∀ x ∈ bs, bodyLineOk x := hok
  have hnl : ∀ x ∈ bs, '\n' ∉ x := fun x hx => (hbody x hx).1
  have hfb : findBody ('\n' :: (joinLinesNl bs ++ next)) =
      some (bodyOf bs, '\n' :: next) := by
    rw [region_eq_bodyOf]
    exact findBody_render bs next hbody hnext
  have hbd := bodyToNewLines_bodyOf bs hnl
  cases b <;> cases d <;>
    simp only [renderHeader, renderCount, List.cons_append, List.nil_append,
      List.append_assoc, matchHunkAt, Option.bind_eq_bind, Option.some_bind,
      dropPref_atat, ws_drop_dash, dropPref_dash, dropPref_plus,
      parseDigits_render_space, parseDigits_render_comma, optComma_space,
      optComma_comma, wsPlus_space_plus, wsPlus_space_at, hfb, hbd, toHunk,
      Option.getD_none, Option.getD_some]

theorem matchHunkAt_none {s : Chars} (h : atat.isPrefixOf s = false) :
    matchHunkAt s = none := by
  unfold matchHunkAt dropPref
  rw [if_neg (by simp [h])]
  rfl

theorem matchHunkAt_nl (rest : Chars) : matchHunkAt ('\n' :: rest) = none :=
  matchHunkAt_none (by simp [atat, List.isPrefixOf])

theorem renderBlocks_shape (hs : List HunkSrc) :
    renderBlocks hs = [] ∨ ∃ X, renderBlocks hs = '@' :: '@' :: X := by
  cases hs with
  | nil => exact Or.inl rfl
  | cons h rest =>
    refine Or.inr ⟨?_, ?_⟩
    · exact ' ' :: '-' ::
        (renderNat h.srcStartOld ++ (renderCount h.srcCountOld ++
          (' ' :: '+' :: (renderNat h.srcStartNew ++ (renderCount h.srcCountNew ++
            (' ' :: '@' :: '@' :: [])))))) ++
        ('\n' :: (joinLinesNl h.srcBody ++ renderBlocks rest))
    · simp [renderBlocks, renderHeader]

theorem termNext_renderBlocks (hs : List HunkSrc) : termNext (renderBlocks hs) := by
  rcases renderBlocks_shape hs with h | ⟨X, h⟩
  · exact Or.inr (Or.inr h)
  · refine Or.inl ?_
    rw [h]
    exact ⟨X, rfl⟩

theorem scanHunks_eq_some {s : Chars} {hk : Hunk} {rest : Chars}
    (hm : matchHunkAt s = some (hk, rest)) :
    scanHunks s = hk :: scanHunks rest := by
  rw [scanHunks]
  split
  · rename_i h' rest' heq
    rw [hm] at heq
    cases heq
    rfl
  · rename_i heq
    rw [hm] at heq
    cases heq

theorem scanHunks_nil : scanHunks [] = [] := by
  rw [scanHunks]
  split
  · rename_i h' rest' heq
    rw [matchHunkAt_none (by decide)] at heq
    cases heq
  · rfl

theorem scanHunks_cons_none {c : Char} {rest : Chars}
    (hm : matchHunkAt (c :: rest) = none) :
    scanHunks (c :: rest) = scanHunks rest := by
  rw [scanHunks]
  split
  · rename_i h' rest' heq
    rw [hm] at heq
    cases heq
  · rfl

theorem scanHunks_render :
    ∀ (hs : List HunkSrc), (∀ h ∈ hs, srcOk h) →
      scanHunks (renderBlocks hs) = hs.map toHunk := by
  intro hs
  induction hs with
  | nil =>
    intro _
    rw [show renderBlocks [] = [] from rfl, scanHunks_nil]
    rfl
  | cons h rest ih =>
    intro hok
    have hm := matchHunkAt_render h (renderBlocks rest)
      (hok h (List.mem_cons_self h rest)) (termNext_renderBlocks rest)
    rw [show renderBlocks (h :: rest) =
      renderHeader h ++ ('\n' :: (joinLinesNl h.srcBody ++ renderBlocks rest))
      from rfl]
    rw [scanHunks_eq_some hm]
    simp only [List.map_cons]
    congr 1
    rw [scanHunks_cons_none (matchHunkAt_nl _)]
    exact ih (fun x hx => hok x (List.mem_cons_of_mem h hx))

theorem infix_pair_append {a b : Char} {x y : Chars}
    (h : [a, b] <:+: (x ++ y)) :
    [a, b] <:+: x ∨ [a, b] <:+: y ∨ (x.getLast? = some a ∧ y.head? = some b) := by
  induction x with
  | nil =>
    simp only [List.nil_append] at h
    exact Or.inr (Or.inl h)
  | cons c x2 ih =>
    rw [List.cons_append] at h
    rcases List.infix_cons_iff.mp h with hpre | hinf
    · rcases hpre with ⟨t, ht⟩
      cases x2 with
      | nil =>
        simp only [List.cons_append, List.nil_append, List.cons.injEq] at ht
        refine Or.inr (Or.inr ⟨?_, ?_⟩)
        · simp [← ht.1]
        · rw [← ht.2]
          rfl
      | cons c2 x3 =>
        simp only [List.cons_append, List.cons.injEq] at ht
        refine Or.inl ?_
        have hp : [a, b] <+: (c :: c2 :: x3) := by
          refine ⟨x3, ?_⟩
          simp [ht.1, ht.2.1]
        exact hp.isInfix
    · rcases ih hinf with h1 | h2 | h3
      · exact Or.inl (List.infix_cons h1)
      · exact Or.inr (Or.inl h2)
      · refine Or.inr (Or.inr ⟨?_, h3.2⟩)
        cases x2 with
        | nil => simp at h3
        | cons d x4 =>
          rw [List.getLast?_cons_cons]
          exact h3.1

theorem no_atat_append {x y : Chars} (hx : ¬ atat <:+: x) (hy : ¬ atat <:+: y)
    (hj : x.getLast? ≠ some '@' ∨ y.head? ≠ some '@') : ¬ atat <:+: (x ++ y) := by
  intro h
  rw [show atat = ['@', '@'] from rfl] at h hx hy
  rcases infix_pair_append h with h1 | h2 | h3
  · exact hx h1
  · exact hy h2
  · rcases hj with hj1 | hj2
    · exact hj1 h3.1
    · exact hj2 h3.2

theorem not_pref_of_head {tok l : Chars} {a b : Char}
    (ha : tok.head? = some a) (hb : l.head? = some b) (hne : a ≠ b) :
    ¬ tok <+: l := by
  intro ⟨t, ht⟩
  cases tok with
  | nil => simp at ha
  | cons c tok2 =>
    cases l with
    | nil => simp at hb
    | cons d l2 =>
      simp only [List.head?_cons, Option.some.injEq] at ha hb
      simp only [List.cons_append, List.cons.injEq] at ht
      exact hne (ha ▸ hb ▸ ht.1)

theorem scanHunks_skip_line :
    ∀ (l : Chars), '\n' ∉ l → ¬ atat <:+: l →
      ∀ rest, scanHunks (l ++ '\n' :: rest) = scanHunks rest := by
  intro l
  induction l with
  | nil =>
    intro _ _ rest
    rw [List.nil_append]
    exact scanHunks_cons_none (matchHunkAt_nl rest)
  | cons c l2 ih =>
    intro hnl hinf rest
    have hnone : matchHunkAt (c :: (l2 ++ '\n' :: rest)) = none := by
      apply matchHunkAt_none
      cases hval : atat.isPrefixOf (c :: (l2 ++ '\n' :: rest))
      · rfl
      · exfalso
        have hp : atat <+: (c :: (l2 ++ '\n' :: rest)) :=
          List.isPrefixOf_iff_prefix.mp hval
        cases l2 with
        | nil =>
          rcases hp with ⟨t, ht⟩
          rw [show atat = ['@', '@'] from rfl] at ht
          simp at ht
        | cons c2 l3 =>
          rcases hp with ⟨t, ht⟩
          rw [show atat = ['@', '@'] from rfl] at ht
          simp only [List.cons_append, List.append_eq, List.cons.injEq] at ht
          apply hinf
          refine ⟨[], l3, ?_⟩
          rw [show atat = ['@', '@'] from rfl]
          simp only [List.nil_append, List.cons_append]
          rw [← ht.1, ← ht.2.1]
    rw [List.cons_append, scanHunks_cons_none hnone]
    exact ih (fun hm => hnl (List.mem_cons_of_mem c hm))
      (fun hm => hinf (List.infix_cons hm)) rest

theorem splitSections_cons_not_sep {c : Char} {rest : Chars}
    (h : sepDG.isPrefixOf (c :: rest) = false) :
    splitSections (c :: rest) =
      match splitSections rest with
      | s :: ss => (c :: s) :: ss
      | [] => [[c]] := by
  conv_lhs => rw [splitSections]
  rw [if_neg (by rw [h]; exact Bool.false_ne_true)]

theorem splitSections_walk {u : Chars} (h : '\n' ∉ u) :
    ∀ r s ss, splitSections r = s :: ss →
      splitSections (u ++ r) = (u ++ s) :: ss := by
  induction u with
  | nil =>
    intro r s ss hr
    simpa using hr
  | cons c u2 ih =>
    intro r s ss hr
    have hc : c ≠ '\n' := fun he => h (he ▸ List.mem_cons_self c u2)
    have hpre : sepDG.isPrefixOf (c :: (u2 ++ r)) = false := by
      rw [show sepDG = '\n' :: dgPre from rfl]
      simp only [List.isPrefixOf, Bool.and_eq_false_imp]
      intro hbeq
      exact absurd ((show ('\n' : Char) = c by simpa using hbeq).symm) hc
    rw [List.cons_append, splitSections_cons_not_sep hpre]
    rw [ih (fun hm => h (List.mem_cons_of_mem c hm)) r s ss hr]
    rfl

theorem joinLinesNl_cons (l : Chars) (ls : List Chars) :
    joinLinesNl (l :: ls) = l ++ ('\n' :: joinLinesNl ls) := by
  simp [joinLinesNl]

theorem joinLinesNl_append (a b : List Chars) :
    joinLinesNl (a ++ b) = joinLinesNl a ++ joinLinesNl b := by
  simp [joinLinesNl]

theorem splitSections_nl {r : Chars} (h : dgPre.isPrefixOf r = false) :
    splitSections ('\n' :: r) =
      match splitSections r with
      | s :: ss => ('\n' :: s) :: ss
      | [] => [['\n']] := by
  apply splitSections_cons_not_sep
  rw [show sepDG = '\n' :: dgPre from rfl]
  simp only [List.isPrefixOf, Bool.and_eq_false_imp]
  intro _
  exact h

theorem splitSections_join :
    ∀ (ls : List Chars), (∀ l ∈ ls, '\n' ∉ l) → (∀ l ∈ ls, ¬ dgPre <+: l) →
      splitSections (joinLinesNl ls) = [joinLinesNl ls] := by
  intro ls
  induction ls with
  | nil =>
    intro _ _
    rw [show joinLinesNl [] = [] from rfl]
    rw [splitSections]
  | cons l ls2 ih =>
    intro hnl hdg
    have htail : dgPre.isPrefixOf (joinLinesNl ls2) = false := by
      cases ls2 with
      | nil => rfl
      | cons l2 ls3 =>
        rw [joinLinesNl_cons]
        exact prefix_append_no_nl
          (hdg l2 (List.mem_cons_of_mem l (List.mem_cons_self l2 ls3)))
          (by decide) rfl
    have hstep : splitSections ('\n' :: joinLinesNl ls2)
        = [('\n' :: joinLinesNl ls2)] := by
      rw [splitSections_nl htail]
      rw [ih (fun x hx => hnl x (List.mem_cons_of_mem l hx))
        (fun x hx => hdg x (List.mem_cons_of_mem l hx))]
    rw [joinLinesNl_cons]
    exact splitSections_walk (hnl l (List.mem_cons_self l ls2)) _ _ _ hstep

theorem splitSections_join_head (l0 : Chars) (ls : List Chars)
    (h0 : '\n' ∉ l0) (hnl : ∀ l ∈ ls, '\n' ∉ l) (hdg : ∀ l ∈ ls, ¬ dgPre <+: l) :
    splitSections (joinLinesNl (l0 :: ls)) = [joinLinesNl (l0 :: ls)] := by
  have htail : dgPre.isPrefixOf (joinLinesNl ls) = false := by
    cases ls with
    | nil => rfl
    | cons l2 ls3 =>
      rw [joinLinesNl_cons]
      exact prefix_append_no_nl (hdg l2 (List.mem_cons_self l2 ls3)) (by decide) rfl
  have hstep : splitSections ('\n' :: joinLinesNl ls) = [('\n' :: joinLinesNl ls)] := by
    rw [splitSections_nl htail]
    rw [splitSections_join ls hnl hdg]
  rw [joinLinesNl_cons]
  exact splitSections_walk h0 _ _ _ hstep

/-- The rendered per-file header line with equal a-side and b-side
paths. -/
def hdrLine (p : String) : Chars :=
  hdrTok ++ (p.toList ++ (sepB ++ p.toList))

/-- The rendered old-file marker line of the canonical diff. -/
def minusLine (p : String) : Chars :=
  "--- a/".toList ++ p.toList

/-- The rendered new-file marker line of the canonical diff. -/
def plusLine (p : String) : Chars :=
  "+++ b/".toList ++ p.toList

/-- A canonical rendered single-file unified diff: the per-file header,
the old- and new-file marker lines, and the newline-terminated hunk
blocks. -/
def renderDiff (p : String) (hs : List HunkSrc) : String :=
  (joinLinesNl [hdrLine p, minusLine p, plusLine p] ++ renderBlocks hs).asString

/-- Conditions on the rendered path: nonempty, single-line, free of the
b-side separator and of a hunk-header token, and invariant under the
JavaScript trim (no leading or trailing whitespace). -/
def cleanPath (p : String) : Prop :=
  p.toList ≠ [] ∧ '\n' ∉ p.toList ∧ ¬ sepB <:+: p.toList ∧
    ¬ atat <:+: p.toList ∧ jsTrim p.toList = p.toList

theorem renderNat_no_nl (n : Nat) : '\n' ∉ renderNat n := by
  intro hm
  exact absurd (renderNat_digits n '\n' hm) (by decide)

theorem renderCount_no_nl (o : Option Nat) : '\n' ∉ renderCount o := by
  intro hm
  cases o with
  | none => simp [renderCount] at hm
  | some c =>
    simp only [renderCount, List.mem_cons] at hm
    rcases hm with h | h
    · exact absurd h (by decide)
    · exact renderNat_no_nl c h

theorem renderHeader_no_nl (h : HunkSrc) : '\n' ∉ renderHeader h := by
  intro hm
  simp only [renderHeader, List.mem_cons, List.mem_append] at hm
  rcases hm with h1 | h1 | h1 | h1 | hm2
  · exact absurd h1 (by decide)
  · exact absurd h1 (by decide)
  · exact absurd h1 (by decide)
  · exact absurd h1 (by decide)
  · rcases hm2 with h1 | h1 | h1 | h1 | h1 | h1 | h1
    · exact renderNat_no_nl _ h1
    · exact renderCount_no_nl _ h1
    · exact absurd h1 (by decide)
    · exact absurd h1 (by decide)
    · exact renderNat_no_nl _ h1
    · exact renderCount_no_nl _ h1
    · simp at h1

theorem renderBlocks_join :
    ∀ (hs : List HunkSrc),
      renderBlocks hs
        = joinLinesNl ((hs.map (fun h => renderHeader h :: h.srcBody)).flatten) := by
  intro hs
  induction hs with
  | nil => rfl
  | cons h rest ih =>
    rw [show renderBlocks (h :: rest)
      = renderHeader h ++ ('\n' :: (joinLinesNl h.srcBody ++ renderBlocks rest))
      from rfl]
    simp only [List.map_cons, List.flatten_cons]
    rw [joinLinesNl_append, joinLinesNl_cons, ih]
    simp [List.append_assoc]

theorem dropWhile_isWs_hdrTok (X : Chars) :
    List.dropWhile isWs (hdrTok ++ X) = hdrTok ++ X := by
  rw [show hdrTok ++ X = 'd' :: ("iff --git a/".toList ++ X) from rfl]
  rw [List.dropWhile_cons]
  rw [if_neg (by decide)]

theorem matchFileHeader_shape {c0 : Char} (w' V : Chars) (hc0 : c0 ≠ '\n') :
    matchFileHeader (hdrTok ++ (c0 :: (w' ++ V))) =
      (scanAB (w' ++ V)).map (fun g2 => (jsTrim g2).asString) := by
  unfold matchFileHeader
  rw [dropWhile_isWs_hdrTok, if_pos (isPrefixOf_self_append _ _), List.drop_left]
  exact if_neg hc0

theorem scanAB_cons (c : Char) (rest : Chars) :
    scanAB (c :: rest) =
      if sepB.isPrefixOf (c :: rest) then
        match tryBSide ((c :: rest).drop 3) with
        | some g2 => some g2
        | none => if c = '\n' then none else scanAB rest
      else if c = '\n' then none else scanAB rest := by
  rw [scanAB]

theorem scanAB_at_sep (w J : Chars) (hw : w ≠ []) (hnl : '\n' ∉ w) :
    scanAB (sepB ++ (w ++ ('\n' :: J))) = some w := by
  rw [show sepB ++ (w ++ ('\n' :: J)) = ' ' :: ("b/".toList ++ (w ++ ('\n' :: J)))
    from rfl]
  rw [scanAB_cons]
  rw [if_pos (by
    rw [show (' ' :: ("b/".toList ++ (w ++ ('\n' :: J)))) = sepB ++ (w ++ ('\n' :: J))
      from rfl]
    exact isPrefixOf_self_append _ _)]
  have hdrop : ((' ' :: ("b/".toList ++ (w ++ ('\n' :: J)))) : Chars).drop 3
      = w ++ ('\n' :: J) := rfl
  rw [hdrop]
  have htk : List.takeWhile (fun x => x ≠ '\n') (w ++ ('\n' :: J)) = w := by
    rw [takeWhile_append_all ('\n' :: J) (fun c hc => by
      simp only [decide_eq_true_eq]
      intro he; exact hnl (he ▸ hc))]
    rw [show List.takeWhile (fun x => x ≠ '\n') ('\n' :: J) = [] from by
      simp [List.takeWhile_cons]]
    simp
  have htry : tryBSide (w ++ ('\n' :: J)) = some w := by
    unfold tryBSide
    rw [htk]
    rw [if_pos (by
      constructor
      · have : 0 < w.length := List.length_pos.mpr hw
        omega
      · simp only [List.length_append, List.length_cons]
        omega)]
  rw [htry]

theorem scanAB_walk : ∀ (u : Chars), '\n' ∉ u → ¬ sepB <:+: u →
    ∀ v, scanAB (u ++ (sepB ++ v)) = scanAB (sepB ++ v) := by
  intro u
  induction u with
  | nil => intro _ _ v; rfl
  | cons c u2 ih =>
    intro hnl hni v
    have hc : c ≠ '\n' := fun he => hnl (he ▸ List.mem_cons_self c u2)
    have hpre : sepB.isPrefixOf (c :: (u2 ++ (sepB ++ v))) = false := by
      cases hval : sepB.isPrefixOf (c :: (u2 ++ (sepB ++ v)))
      · rfl
      · exfalso
        have hp : sepB <+: (c :: (u2 ++ (sepB ++ v))) :=
          List.isPrefixOf_iff_prefix.mp hval
        cases u2 with
        | nil =>
          rcases hp with ⟨t, ht⟩
          simp [sepB] at ht
        | cons c2 u3 =>
          cases u3 with
          | nil =>
            rcases hp with ⟨t, ht⟩
            simp [sepB] at ht
          | cons c3 u4 =>
            rcases hp with ⟨t, ht⟩
            rw [show sepB = [' ', 'b', '/'] from rfl] at ht
            simp only [List.cons_append, List.append_eq, List.cons.injEq] at ht
            apply hni
            refine ⟨[], u4, ?_⟩
            rw [show sepB = [' ', 'b', '/'] from rfl]
            simp only [List.nil_append, List.cons_append]
            rw [← ht.1, ← ht.2.1, ← ht.2.2.1]
    rw [List.cons_append, scanAB_cons, hpre]
    simp only [Bool.false_eq_true, if_false]
    rw [if_neg hc]
    exact ih (fun hm => hnl (List.mem_cons_of_mem c hm))
      (fun hm => hni (List.infix_cons hm)) v

theorem matchFileHeader_render (p : String) (hp : cleanPath p) (J : Chars) :
    matchFileHeader (hdrLine p ++ ('\n' :: J)) = some p := by
  obtain ⟨hne, hnl, hsep, _, htrim⟩ := hp
  rcases hw : p.toList with _ | ⟨c0, w'⟩
  · exact absurd hw hne
  · have hc0 : c0 ≠ '\n' := by
      intro he
      apply hnl
      rw [hw, he]
      exact List.mem_cons_self _ _
    have hshape : hdrLine p ++ ('\n' :: J)
        = hdrTok ++ (c0 :: (w' ++ (sepB ++ ((c0 :: w') ++ ('\n' :: J))))) := by
      rw [hdrLine, hw]
      simp [List.append_assoc]
    rw [hshape]
    rw [matchFileHeader_shape w' _ hc0]
    rw [scanAB_walk w' (fun hm => hnl (hw ▸ List.mem_cons_of_mem c0 hm))
      (fun hm => (hw ▸ hsep) (List.infix_cons hm)) _]
    rw [scanAB_at_sep (c0 :: w') J (by simp) (hw ▸ hnl)]
    simp only [Option.map_some']
    rw [show jsTrim (c0 :: w') = c0 :: w' from hw ▸ htrim]
    rw [show ((c0 :: w').asString) = p from by rw [← hw]; rfl]

theorem stepSection_single {sec : Chars} {p : String} {hks : List Hunk}
    (hne2 : jsTrim sec ≠ [])
    (hmf : matchFileHeader sec = some p)
    (hscan : scanHunks sec = hks) :
    stepSection [] [] sec = [(p, hks)] := by
  unfold stepSection
  rw [if_neg (fun he => hne2 (by simpa using he))]
  simp only [List.nil_append]
  rw [hmf]
  have hfin : addHunks [] p (scanHunks sec) = [(p, hks)] := by
    rw [hscan]
    simp [addHunks]
  exact hfin

/-- C6 (amended): for every canonically rendered single-file unified diff
— a clean path, body lines never starting with a hunk-header or diff-git
token, and every line newline-terminated — the Diff Parser returns
exactly the rendered hunks for that file, in their original order, and
any header that omits countOld or countNew yields a hunk with that count
equal to one. -/
theorem claim6_hunk_headers (p : String) (hs : List HunkSrc)
    (hp : cleanPath p) (hok : ∀ h ∈ hs, srcOk h) :
    parseDiffToFileHunks (renderDiff p hs) = [(p, hs.map toHunk)] := by
  obtain ⟨hne, hnl, hsep, hat, htrim⟩ := hp
  have hLnl : ∀ l ∈ (hs.map (fun h => renderHeader h :: h.srcBody)).flatten,
      '\n' ∉ l := by
    intro l hl
    simp only [List.mem_flatten, List.mem_map] at hl
    rcases hl with ⟨g, ⟨h, hh, rfl⟩, hlg⟩
    rcases List.mem_cons.mp hlg with rfl | hb
    · exact renderHeader_no_nl h
    · exact ((hok h hh) l hb).1
  have hLdg : ∀ l ∈ (hs.map (fun h => renderHeader h :: h.srcBody)).flatten,
      ¬ dgPre <+: l := by
    intro l hl
    simp only [List.mem_flatten, List.mem_map] at hl
    rcases hl with ⟨g, ⟨h, hh, rfl⟩, hlg⟩
    rcases List.mem_cons.mp hlg with rfl | hb
    · exact not_pref_of_head rfl rfl (by decide)
    · intro hpre
      exact ((hok h hh) l hb).2.2
        (List.IsPrefix.trans (show dgTok <+: dgPre from ⟨[' '], by decide⟩) hpre)
  have hh_nl : '\n' ∉ hdrLine p := by
    intro hm
    rw [hdrLine] at hm
    rcases List.mem_append.mp hm with h1 | h1
    · exact absurd h1 (by decide)
    · rcases List.mem_append.mp h1 with h2 | h2
      · exact hnl h2
      · rcases List.mem_append.mp h2 with h3 | h3
        · exact absurd h3 (by decide)
        · exact hnl h3
  have hm_nl : '\n' ∉ minusLine p := by
    intro hm
    rw [minusLine] at hm
    rcases List.mem_append.mp hm with h1 | h1
    · exact absurd h1 (by decide)
    · exact hnl h1
  have hp_nl : '\n' ∉ plusLine p := by
    intro hm
    rw [plusLine] at hm
    rcases List.mem_append.mp hm with h1 | h1
    · exact absurd h1 (by decide)
    · exact hnl h1
  have hh_at : ¬ atat <:+: hdrLine p := by
    show ¬ atat <:+: (hdrTok ++ (p.toList ++ (sepB ++ p.toList)))
    exact no_atat_append (by decide)
      (no_atat_append hat
        (no_atat_append (by decide) hat (Or.inl (by decide)))
        (Or.inr (by
          rw [show (sepB ++ p.toList).head? = some ' ' from rfl]
          decide)))
      (Or.inl (by decide))
  have hm_at : ¬ atat <:+: minusLine p := by
    show ¬ atat <:+: ("--- a/".toList ++ p.toList)
    exact no_atat_append (by decide) hat (Or.inl (by decide))
  have hp_at : ¬ atat <:+: plusLine p := by
    show ¬ atat <:+: ("+++ b/".toList ++ p.toList)
    exact no_atat_append (by decide) hat (Or.inl (by decide))
  have htail_nl : ∀ l ∈ (minusLine p :: plusLine p ::
      (hs.map (fun h => renderHeader h :: h.srcBody)).flatten), '\n' ∉ l := by
    intro l hl
    rcases List.mem_cons.mp hl with rfl | hl2
    · exact hm_nl
    · rcases List.mem_cons.mp hl2 with rfl | hl3
      · exact hp_nl
      · exact hLnl l hl3
  have htail_dg : ∀ l ∈ (minusLine p :: plusLine p ::
      (hs.map (fun h => renderHeader h :: h.srcBody)).flatten), ¬ dgPre <+: l := by
    intro l hl
    rcases List.mem_cons.mp hl with rfl | hl2
    · exact not_pref_of_head rfl rfl (by decide)
    · rcases List.mem_cons.mp hl2 with rfl | hl3
      · exact not_pref_of_head rfl rfl (by decide)
      · exact hLdg l hl3
  have htext : (renderDiff p hs).toList
      = joinLinesNl (hdrLine p :: minusLine p :: plusLine p ::
          (hs.map (fun h => renderHeader h :: h.srcBody)).flatten) := by
    rw [show (renderDiff p hs).toList
      = joinLinesNl [hdrLine p, minusLine p, plusLine p] ++ renderBlocks hs
      from rfl]
    rw [renderBlocks_join]
    rw [← joinLinesNl_append]
    rfl
  have hsplit : splitSections (joinLinesNl (hdrLine p :: minusLine p :: plusLine p ::
      (hs.map (fun h => renderHeader h :: h.srcBody)).flatten))
      = [joinLinesNl (hdrLine p :: minusLine p :: plusLine p ::
          (hs.map (fun h => renderHeader h :: h.srcBody)).flatten)] :=
    splitSections_join_head _ _ hh_nl htail_nl htail_dg
  have hmf : matchFileHeader (joinLinesNl (hdrLine p :: minusLine p :: plusLine p ::
      (hs.map (fun h => renderHeader h :: h.srcBody)).flatten)) = some p := by
    rw [joinLinesNl_cons]
    exact matchFileHeader_render p ⟨hne, hnl, hsep, hat, htrim⟩ _
  have hscan : scanHunks (joinLinesNl (hdrLine p :: minusLine p :: plusLine p ::
      (hs.map (fun h => renderHeader h :: h.srcBody)).flatten)) = hs.map toHunk := by
    rw [joinLinesNl_cons, scanHunks_skip_line (hdrLine p) hh_nl hh_at]
    rw [joinLinesNl_cons, scanHunks_skip_line (minusLine p) hm_nl hm_at]
    rw [joinLinesNl_cons, scanHunks_skip_line (plusLine p) hp_nl hp_at]
    rw [← renderBlocks_join]
    exact scanHunks_render hs hok
  have hdmem : 'd' ∈ joinLinesNl (hdrLine p :: minusLine p :: plusLine p ::
      (hs.map (fun h => renderHeader h :: h.srcBody)).flatten) := by
    rw [joinLinesNl_cons]
    refine List.mem_append.mpr (Or.inl ?_)
    rw [hdrLine]
    exact List.mem_append.mpr (Or.inl (by decide))
  have hne2 : jsTrim (joinLinesNl (hdrLine p :: minusLine p :: plusLine p ::
      (hs.map (fun h => renderHeader h :: h.srcBody)).flatten)) ≠ [] :=
    jsTrim_ne_nil_of_not_ws hdmem (by decide)
  unfold parseDiffToFileHunks
  rw [htext, hsplit]
  exact stepSection_single hne2 hmf hscan

/-- C6 witness: a rendered two-hunk diff for the path f, the first hunk
omitting countOld and the second omitting countNew, parses to exactly
those two hunks in order with the omitted counts defaulted to one. -/
theorem claim6_hunk_headers_witness :
    parseDiffToFileHunks (renderDiff ("f")
        [⟨2, none, 3, some 2, [(" c".toList), ("+a".toList)]⟩,
         ⟨7, some 0, 9, none, []⟩])
      = [(("f"), [⟨2, 1, 3, 2, [("c"), ("a")]⟩, ⟨7, 0, 9, 1, []⟩])] := by
  have h := claim6_hunk_headers ("f")
      [⟨2, none, 3, some 2, [(" c".toList), ("+a".toList)]⟩,
       ⟨7, some 0, 9, none, []⟩]
      (by unfold cleanPath; decide)
      (by
        intro h hh
        fin_cases hh <;>
          (intro l hl; fin_cases hl <;> exact ⟨by decide, by decide, by decide⟩))
  rw [h]
  decide

unseal List.merge List.mergeSort padWhile splitSections scanHunks scanHeredocs in
/-- C6 counterexample to the claim as stated: a diff text with one
well-formed hunk header but no final newline parses to zero hunks for the
file, because the hunk pattern's terminator needs a newline before the
next header or before the end of the text; appending the final newline
yields the single expected hunk with both omitted counts defaulted to
one. -/
theorem claim6_hunk_headers_counterexample :
    parseDiffToFileHunks ("diff --git a/f b/f\n--- a/f\n+++ b/f\n@@ -1 +1 @@\n+x")
      = [(("f"), [])] ∧
    parseDiffToFileHunks ("diff --git a/f b/f\n--- a/f\n+++ b/f\n@@ -1 +1 @@\n+x\n")
      = [(("f"), [⟨1, 1, 1, 1, [("x")]⟩])] :=
  ⟨by decide, by decide⟩
